import Mathlib

/-!
Shallow embedding of `qaoa_tn.py` (QAOA tree tensor networks).

Scalars: the Python code works with complex floating-point matrices built from
`np.cos(θ/2)`, `np.sin(θ/2)`, the imaginary unit `1j` and the constant
`1/np.sqrt(2)`.  The trigonometric and square-root primitives are external
numeric capabilities (spec §6), so an angle is embedded as the pair of scalars
`(cos(θ/2), sin(θ/2))` and `1/np.sqrt(2)` as an explicit scalar argument.  The
scalar ring is `GaussianInt` (`ℤ√-1`), which supplies a genuine imaginary unit
with `i * i = -1` while keeping every definition executable; all matrix
identities proved below are polynomial, so they are established for arbitrary
scalar values of the cosine/sine pairs.

Matrices are `List (List K)` in row-major order, exactly the layout of the
dense `numpy` arrays in the source; `np.reshape` is then literally a
re-labelling of the flat row-major buffer, which the `TenN` structure records
as a shape together with the flat data.
-/

/-- Scalar ring of the embedding: Gaussian integers, providing the imaginary
unit used for `-1j` in the source. -/
abbrev K : Type := GaussianInt

/-- The imaginary unit `1j` of the source. -/
def imK : K := ⟨0, 1⟩

/-- An angle `θ` of the source, represented by the two scalars the code
actually uses, `c = cos(θ/2)` and `s = sin(θ/2)`. -/
structure Ang where
  c : K
  s : K
deriving DecidableEq

/-- Negating an angle, as done by `beta = -beta; gamma = -gamma` in
`tree_tensor_network_layer` when `dag` is set: by the external `cos`/`sin`
primitives, `cos(-θ/2) = cos(θ/2)` and `sin(-θ/2) = -sin(θ/2)`. -/
def Ang.neg (a : Ang) : Ang := ⟨a.c, -a.s⟩

/-- Dense row-major matrix, the embedding of a 2-D `numpy` array. -/
abbrev Mat : Type := List (List K)

/-- Dense vector, the embedding of a 1-D `numpy` array. -/
abbrev Vec : Type := List K

/-- The matrix `np.eye(2)`. -/
def eye2 : Mat := [[1, 0], [0, 1]]

/-- The matrix `np.array([[0, 1], [1, 0]])` (Pauli X) from the mixer factor. -/
def pauliX : Mat := [[0, 1], [1, 0]]

/-- The matrix `np.diag([1, -1])` (Pauli Z) from the Ising factors. -/
def pauliZ : Mat := [[1, 0], [0, -1]]

/-- Scalar multiple of a matrix, `a * M` in numpy. -/
def scal (a : K) (A : Mat) : Mat := A.map (List.map (fun x => a * x))

/-- Entrywise sum of two (same-shaped) matrices, `A + B` in numpy. -/
def madd (A B : Mat) : Mat := List.zipWith (List.zipWith (fun x y => x + y)) A B

/-- Entrywise difference of two (same-shaped) matrices, `A - B` in numpy. -/
def msub (A B : Mat) : Mat := List.zipWith (List.zipWith (fun x y => x - y)) A B

/-- Kronecker product `np.kron` of two row-major matrices. -/
def kron (A B : Mat) : Mat :=
  A.flatMap (fun ra => B.map (fun rb => ra.flatMap (fun x => rb.map (fun y => x * y))))

/-- The fold `reduce(np.kron, l)` over a list of matrix factors.  In the
source the list is always non-empty; starting the fold from the neutral `1×1`
matrix `[[1]]` gives the same value on non-empty lists because
`kron [[1]] M = M`. -/
def kronList (l : List Mat) : Mat := l.foldl kron [[(1 : K)]]

/-- Kronecker product of two vectors. -/
def kronV (u v : Vec) : Vec := u.flatMap (fun x => v.map (fun y => x * y))

/-- The fold `reduce(np.kron, l)` over a list of vector factors, with the
neutral vector `[1]` as starting point (same remark as for `kronList`). -/
def kronVecs (l : List Vec) : Vec := l.foldl kronV [(1 : K)]

/-- Column `j` of a row-major matrix (missing entries read as `0`; the source
only multiplies well-shaped matrices). -/
def colOf (B : Mat) (j : Nat) : Vec := B.map (fun rb => rb.getD j 0)

/-- Dot product of two vectors. -/
def dotK (u v : Vec) : K := (List.zipWith (fun x y => x * y) u v).sum

/-- Matrix product `A @ B` of row-major matrices. -/
def matmul (A B : Mat) : Mat :=
  A.map (fun ra => (List.range (B.headD []).length).map (fun j => dotK ra (colOf B j)))

/-- Matrix-vector product `A @ v`. -/
def matVec (A : Mat) (v : Vec) : Vec := A.map (fun ra => dotK ra v)

/-- Vector-matrix product `v.T @ A` (a row vector times a matrix). -/
def vecMat (v : Vec) (A : Mat) : Vec :=
  (List.range (A.headD []).length).map (fun j => dotK v (colOf A j))

/-- The vector `np.ones(2) / np.sqrt(2)`; the scalar `h` stands for the
external numeric constant `1/np.sqrt(2)`. -/
def plus2 (h : K) : Vec := [h, h]

/-- Rooted tree with integer branch labels: the embedding of the NetworkX
digraphs produced by `regular_prefix_tree`.  A node is identified with the
list of `source` labels on the path from the root to it (for a prefix tree
these are exactly the strings the nodes stand for); each child edge carries
the child's `source` attribute. -/
inductive RTree : Type where
  | node : List (Int × RTree) → RTree

/-- The labelled children of a tree node (`tree.successors` plus each child's
`source` attribute). -/
def RTree.kids : RTree → List (Int × RTree)
  | .node ks => ks

mutual
/-- Modelled from the spec: `tree_tools.tree_depth` is not under `src/`; per
spec §4.1 `subtreeDepth(tree, node)` is the longest path length from the node
to any reachable leaf, with leaves at depth 0. -/
def RTree.depth : RTree → Nat
  | .node ks => depthKids ks
/-- Helper for `RTree.depth`: greatest child depth plus one over a child list. -/
def depthKids : List (Int × RTree) → Nat
  | [] => 0
  | (_, t) :: rest => max (RTree.depth t + 1) (depthKids rest)
end

mutual
/-- The nodes at distance `d` below a tree node, with the label path leading
to each and its subtree: the embedding of `nx.descendants_at_distance`
(node identity is the label path). -/
def RTree.atDepth : RTree → Nat → List (List Int × RTree)
  | t, 0 => [([], t)]
  | .node ks, d + 1 => atDepthKids ks d
/-- Helper for `RTree.atDepth`: nodes at distance `d` below any child,
label paths extended by the child's branch label. -/
def atDepthKids : List (Int × RTree) → Nat → List (List Int × RTree)
  | [], _ => []
  | (a, t) :: rest, d =>
    ((RTree.atDepth t d).map (fun pr => (a :: pr.1, pr.2))) ++ atDepthKids rest d
end

/-- A perfect tree where every internal node has `w` children labelled
`0, …, w-1`, of the given depth (for `w = 0` the tree is a single leaf). -/
def chain (w : Nat) : Nat → RTree
  | 0 => .node []
  | levels + 1 => .node ((List.range w).map (fun a => (Int.ofNat a, chain w levels)))

/-- The embedding of `regular_prefix_tree(degree, depth)`: the prefix tree of
`itertools.product` of one alphabet `{0, …, degree-1}` followed by
`depth - 1` alphabets `{0, …, degree-2}` (with the `NIL` sink removed).  The
guard reproduces the cases where some alphabet of the product is empty, so
the product has no strings at all and only the root remains; note that for
`depth = 0` the Python `[t] * (depth - 1)` is empty, so the generated tree
has depth 1, and this quirk is reproduced by the `Nat` subtraction here. -/
def regular_prefix_tree (degree depth : Nat) : RTree :=
  if degree = 0 ∨ (degree = 1 ∧ 2 ≤ depth) then .node []
  else .node ((List.range degree).map (fun a => (Int.ofNat a, chain (degree - 1) (depth - 1))))

/-- All length-`d` label sequences over the alphabet `{0, …, w-1}`, in
lexicographic order: the paths of `chain w k` at depth `d ≤ k`. -/
def tuples (w : Nat) : Nat → List (List Int)
  | 0 => [[]]
  | d + 1 => (List.range w).flatMap (fun a => (tuples w d).map (fun p => ((a : Int) :: p)))

/-- The error kinds of the source, i.e. the distinct
`ValueError`/`KeyError`/`TypeError` raises: `invalidPath` is the
`"invalid edge choice {c}"` raise of `edge_choices_to_node`, `unknownQubit`
the `KeyError` of the `qubit_to_idx[...]` lookups in `ising_rotation_matrix`,
`pathTooDeep` the `"too high internal node depth: {got} >= {expected}"` raise
of `contract_children`, `indexErr` an out-of-range `betas`/`gammas` index,
and `typeErr` the `TypeError` that `reduce(np.kron, [np.eye(2)] * len(qubits))`
raises in `ising_rotation_matrix` when the qubit list is empty (`reduce` of an
empty sequence with no initializer). -/
inductive Err : Type where
  | invalidPath : Int → Err
  | unknownQubit : Err
  | pathTooDeep : Nat → Nat → Err
  | indexErr : Err
  | typeErr : Err
deriving DecidableEq

/-- View of `Except` as a sum, used to derive decidable equality. -/
def exceptSum {ε α : Type} : Except ε α → ε ⊕ α
  | .error e => .inl e
  | .ok a => .inr a

instance {ε α : Type} [DecidableEq ε] [DecidableEq α] : DecidableEq (Except ε α) :=
  fun x y =>
    decidable_of_iff (exceptSum x = exceptSum y)
      (by cases x <;> cases y <;> simp [exceptSum])

/-- The walk of `edge_choices_to_node` below a subtree, accumulating the label
path of the current node: at each step the first successor whose `source`
attribute equals the next edge choice is entered, and a missing label raises
`invalidPath` (`ValueError("invalid edge choice ...")`). -/
def edge_choices_to_node_from (t : RTree) (acc : List Int) : List Int → Except Err (List Int)
  | [] => .ok acc
  | c :: rest =>
    match (RTree.kids t).find? (fun k => decide (k.1 = c)) with
    | some k => edge_choices_to_node_from k.2 (acc ++ [c]) rest
    | none => .error (.invalidPath c)

/-- The embedding of `edge_choices_to_node(tree, root, edge_choices)`: the
tree argument is the subtree rooted at `root`, and the returned node is its
label path from the root. -/
def edge_choices_to_node (t : RTree) (edge_choices : List Int) : Except Err (List Int) :=
  edge_choices_to_node_from t [] edge_choices

/-- Whether a label path can be walked from the root, each step matching some
child's branch label (the success condition of `edge_choices_to_node`). -/
def validPath : RTree → List Int → Bool
  | _, [] => true
  | .node ks, c :: rest =>
    match ks.find? (fun k => decide (k.1 = c)) with
    | some k => validPath k.2 rest
    | none => false

/-- The guard prefix of `contract_children(tree, tree_root, tensors_by_root,
edge_choices)` (lines 303-307): the subtree depth is computed, then the node
is resolved via `edge_choices_to_node` — which may itself raise — and only
then is the `len(edge_choices) > depth` check made, raising
`ValueError("too high internal node depth: ...")`.  The actual contraction
(the external greedy tensor contraction machinery, out of scope per spec §1)
is entered only when this guard prefix returns the resolved node. -/
def contract_children_check (tree : RTree) (edge_choices : List Int) : Except Err (List Int) := do
  let depth := RTree.depth tree
  let root ← edge_choices_to_node tree edge_choices
  if edge_choices.length > depth then .error (.pathTooDeep edge_choices.length depth)
  else .ok root

/-- The dict comprehension `{qubit: qubit_idx for qubit_idx, qubit in
enumerate(qubits)}` looked up at `q`: the index of the last occurrence of `q`
(later dict insertions overwrite earlier ones), or `none` when `q` is not a
declared qubit (the `KeyError` case). -/
def qubit_to_idx (qubits : List (List Int)) (q : List Int) : Option Nat :=
  ((qubits.enum.reverse).find? (fun p => decide (p.2 = q))).map (fun p => p.1)

/-- Lookup in `qubit_to_idx`, with the `KeyError` surfaced as `unknownQubit`. -/
def lookupIdx (qubits : List (List Int)) (q : List Int) : Except Err Nat :=
  match qubit_to_idx qubits q with
  | some i => .ok i
  | none => .error .unknownQubit

/-- The embedding of `ising_rotation_matrix(gamma, qubits, edges)`: for each
edge `(j, k)` a factor `cos(γ/2)·I - 1j·sin(γ/2)·Z_j Z_k` is formed as the sum
of two Kronecker-factor lists (identity everywhere except at the positions of
`j` and `k` in `qubits`), and the factors are multiplied in edge-list order
onto the `2^n × 2^n` identity.  The identity seed of the final fold is
`reduce(np.kron, [np.eye(2)] * len(qubits))` (line 120), which raises
`TypeError` when the qubit list is empty (`reduce` of an empty sequence with
no initializer), after the `edges_idx` and `rotations` comprehensions have
been evaluated. -/
def ising_rotation_matrix (γ : Ang) (qubits : List (List Int))
    (edges : List (List Int × List Int)) : Except Err Mat := do
  let edges_idx ← edges.mapM (fun e => do
    let i1 ← lookupIdx qubits e.1
    let i2 ← lookupIdx qubits e.2
    pure (i1, i2))
  let rotations := edges_idx.map (fun p =>
    madd
      (kronList ((List.range qubits.length).map (fun idx =>
        if idx = p.1 then scal γ.c eye2 else eye2)))
      (kronList ((List.range qubits.length).map (fun idx =>
        if idx = p.1 then scal (-(imK * γ.s)) pauliZ
        else if idx = p.2 then pauliZ
        else eye2))))
  if qubits.length = 0 then .error .typeErr
  else pure (rotations.foldl matmul (kronList (List.replicate qubits.length eye2)))

/-- Total wrapper for `ising_rotation_matrix` on inputs where it succeeds
(within `tree_tensor_network_layer` every edge endpoint is in the qubit list,
so the `KeyError` branch is unreachable there). -/
def isingD (γ : Ang) (qubits : List (List Int)) (edges : List (List Int × List Int)) : Mat :=
  match ising_rotation_matrix γ qubits edges with
  | .ok M => M
  | .error _ => [[(1 : K)]]

/-- Whether every edge references only declared qubits (the validity condition
of spec §4.2 for `UnknownQubitError`). -/
def edgesValid (qubits : List (List Int)) (edges : List (List Int × List Int)) : Bool :=
  edges.all (fun e => decide (e.1 ∈ qubits) && decide (e.2 ∈ qubits))

/-- The position of a declared qubit in the qubit list: the value stored for
it by the `qubit_to_idx` dict comprehension (for a duplicate-free qubit list
this is the unique index of the qubit, as proved below). -/
def qubitPos (qubits : List (List Int)) (q : List Int) : Nat :=
  (qubit_to_idx qubits q).getD 0

/-- The factor contributed by one edge `(j, k)` as the specification words it:
`cos(γ/2)·I - i·sin(γ/2)·(Z_j ⊗ Z_k)`, the `Z ⊗ Z` part embedded via Kronecker
product into the full space at the positions of `j` and `k` in the qubit
list. -/
def ising_edge_factor (γ : Ang) (qubits : List (List Int)) (e : List Int × List Int) : Mat :=
  madd
    (scal γ.c (kronList (List.replicate qubits.length eye2)))
    (scal (-(imK * γ.s)) (kronList ((List.range qubits.length).map (fun idx =>
      if idx = qubitPos qubits e.1 ∨ idx = qubitPos qubits e.2 then pauliZ else eye2))))

/-- Shape predicate for row-major matrices: `r` rows, each of length `c`. -/
def MatDims (A : Mat) (r c : Nat) : Prop := A.length = r ∧ ∀ row ∈ A, row.length = c

/-- The single-qubit mixer factor
`np.cos(beta/2) * np.eye(2) - 1j * np.sin(beta/2) * X`. -/
def mixer2 (β : Ang) : Mat := msub (scal β.c eye2) (scal (imK * β.s) pauliX)

/-- The sparse map of insertion operators (`extra_operators`): qubit (tree
node, identified by its label path) to a `2×2` matrix. -/
abbrev ExtraOps : Type := List (List Int × Mat)

/-- The lookup `extra_operators.get(node, np.eye(2))`. -/
def extraGet (ex : ExtraOps) (q : List Int) : Mat := (List.lookup q ex).getD eye2

/-- The `mixer_matrix_factors` of `tree_tensor_network_layer` (lines 174-182)
for a node with `m` successors: the full mixer factor on every qubit of
`[root] + successors` when `odd`; the mixer factor on the node alone with
identities on the successors when the node is the tree root of an even layer;
identities everywhere otherwise. -/
def mixer_matrix_factors (β : Ang) (odd isRoot : Bool) (m : Nat) : List Mat :=
  if odd then List.replicate (m + 1) (mixer2 β)
  else if isRoot then mixer2 β :: List.replicate m eye2
  else List.replicate (1 + m) eye2

/-- The `extra_operators_matrix_factors` of `tree_tensor_network_layer`
(lines 174-182): the `extra_operators` lookup on every qubit of
`[root] + successors` when `odd`; the lookup on the node alone with identities
on the successors when the node is the tree root of an even layer; identities
everywhere otherwise. -/
def extra_matrix_factors (ex : ExtraOps) (odd isRoot : Bool) (path : List Int)
    (succs : List (List Int)) : List Mat :=
  if odd then (path :: succs).map (fun q => extraGet ex q)
  else if isRoot then extraGet ex path :: List.replicate succs.length eye2
  else List.replicate (1 + succs.length) eye2

/-- A TensorNetwork tensor `tn.Node(matrix.reshape(shape))`: the shape list
together with the flat row-major data buffer (reshape in numpy re-labels the
flat buffer, so the data of the reshaped array is the flattened matrix). -/
structure TenN where
  shape : List Nat
  data : List K
deriving DecidableEq

/-- One element of the list returned by `tree_tensor_network_layer`: the
3-tuple of the tensor, its base node and the successors of the base node. -/
structure LEntry where
  tensor : TenN
  node : List Int
  succs : List (List Int)
deriving DecidableEq

/-- A default entry, used only to spell witnesses. -/
def dummyE : LEntry := ⟨⟨[], []⟩, [], []⟩

/-- The composition step of `tree_tensor_network_layer` (lines 187-190):
insertion-operator, mixer and Ising matrices are multiplied as
`E @ M @ G` without `dag` and in the reversed order `G @ M @ E` with `dag`. -/
def composeMatrix (dg : Bool) (E M G : Mat) : Mat :=
  if dg then matmul (matmul G M) E else matmul (matmul E M) G

/-- The boundary-contraction and reshape step of `tree_tensor_network_layer`
(lines 191-199) for a node with `m` successors: when `initial_final`, contract
the composed matrix with the uniform superposition vector (on the right
without `dag`, on the left via the transposed vector with `dag`) and reshape
to `m + 1` legs of dimension 2; otherwise reshape the matrix itself to
`2·(m + 1)` legs of dimension 2. -/
def tensorize (ii dg : Bool) (h : K) (m : Nat) (matrix : Mat) : TenN :=
  if ii then
    ⟨List.replicate (m + 1) 2,
     if dg then vecMat (kronVecs (List.replicate (m + 1) (plus2 h))) matrix
     else matVec matrix (kronVecs (List.replicate (m + 1) (plus2 h)))⟩
  else ⟨List.replicate (2 * (m + 1)) 2, matrix.flatten⟩

/-- The body of the per-node loop of `tree_tensor_network_layer` (lines
171-200) for the node with label path `path` and subtree `sub`, with angles
already negated by the caller when `dag` is set: build the Ising, mixer and
insertion-operator matrices, compose them (order reversed under `dag`),
optionally contract against the uniform superposition vector when
`initial_final`, and reshape into a tensor of `2`-dimensional legs. -/
def layer_node_tensor (β γ : Ang) (odd ii dg : Bool) (ex : ExtraOps) (h : K)
    (path : List Int) (sub : RTree) : Except Err LEntry := do
  let succs := (RTree.kids sub).map (fun k => path ++ [k.1])
  let ising ← ising_rotation_matrix γ (path :: succs) (succs.map (fun s => (path, s)))
  let mixer := kronList (mixer_matrix_factors β odd (decide (path = [])) succs.length)
  let extraM := kronList (extra_matrix_factors ex odd (decide (path = [])) path succs)
  let matrix := if dg then matmul (matmul ising mixer) extraM else matmul (matmul extraM mixer) ising
  if ii then
    let v := kronVecs (List.replicate (succs.length + 1) (plus2 h))
    pure ⟨⟨List.replicate (succs.length + 1) 2, if dg then vecMat v matrix else matVec matrix v⟩,
      path, succs⟩
  else
    pure ⟨⟨List.replicate (2 * (succs.length + 1)) 2, matrix.flatten⟩, path, succs⟩

/-- Total twin of `layer_node_tensor` (its only fallible step, the Ising
qubit lookup, always succeeds on these arguments); proved equal to it below. -/
def node_entry (β γ : Ang) (odd ii dg : Bool) (ex : ExtraOps) (h : K)
    (path : List Int) (sub : RTree) : LEntry :=
  let succs := (RTree.kids sub).map (fun k => path ++ [k.1])
  ⟨tensorize ii dg h succs.length
    (composeMatrix dg
      (kronList (extra_matrix_factors ex odd (decide (path = [])) path succs))
      (kronList (mixer_matrix_factors β odd (decide (path = [])) succs.length))
      (isingD γ (path :: succs) (succs.map (fun s => (path, s))))),
   path, succs⟩

/-- The embedding of `tree_tensor_network_layer(beta, gamma, tree, tree_root,
odd, initial_final, dag, extra_operators)`: negate the angles when `dag`,
then for each depth of the layer's parity class strictly below the tree depth
and each node at that depth, emit the node's tensor triple. -/
def tree_tensor_network_layer (β γ : Ang) (tree : RTree) (odd ii dg : Bool)
    (ex : ExtraOps) (h : K) : Except Err (List LEntry) := do
  let βu := if dg then Ang.neg β else β
  let γu := if dg then Ang.neg γ else γ
  let ds := (List.range (RTree.depth tree)).filter (fun d => decide (d % 2 = (if odd then 1 else 0)))
  let groups ← ds.mapM (fun d =>
    (tree.atDepth d).mapM (fun pr => layer_node_tensor βu γu odd ii dg ex h pr.1 pr.2))
  pure groups.flatten

/-- Total twin of `tree_tensor_network_layer`; proved equal to it below. -/
def layer_entries (β γ : Ang) (tree : RTree) (odd ii dg : Bool) (ex : ExtraOps) (h : K) :
    List LEntry :=
  let βu := if dg then Ang.neg β else β
  let γu := if dg then Ang.neg γ else γ
  let ds := (List.range (RTree.depth tree)).filter (fun d => decide (d % 2 = (if odd then 1 else 0)))
  (ds.map (fun d =>
    (tree.atDepth d).map (fun pr => node_entry βu γu odd ii dg ex h pr.1 pr.2))).flatten

/-- Indexing `betas[layer]` / `gammas[layer]`, with an out-of-range index
surfaced as an error (Python `IndexError`). -/
def getAngle (l : List Ang) (i : Nat) : Except Err Ang :=
  match l.get? i with
  | some a => .ok a
  | none => .error .indexErr

/-- Total indexing twin of `getAngle`, meaningful for in-range indices. -/
def angleAt (l : List Ang) (i : Nat) : Ang := (l.get? i).getD ⟨1, 0⟩

/-- The accumulator map `tensors_by_root`, an insertion-ordered association
list from base node (label path) to the list of tensors based at it, exactly
the Python `dict` built by `qaoa_tensor_network`. -/
abbrev TBR : Type := List (List Int × List TenN)

/-- One step of `update_tensors_by_root`: append a tensor to its base node's
list, creating the key at the end of the map when absent (Python `dict`
insertion order). -/
def addTensor (m : TBR) (key : List Int) (t : TenN) : TBR :=
  if m.any (fun p => decide (p.1 = key)) then
    m.map (fun p => if p.1 = key then (p.1, p.2 ++ [t]) else p)
  else m ++ [(key, [t])]

/-- The inner function `update_tensors_by_root(new_tensors_info)` of
`qaoa_tensor_network`: append each new tensor to its base node's list. -/
def update_tensors_by_root (m : TBR) (es : List LEntry) : TBR :=
  es.foldl (fun acc e => addTensor acc e.node e.tensor) m

/-- The two layer-tensor computations of one iteration of the forward (`# QAOA
circuit`) loop of `qaoa_tensor_network` (lines 234-254): the even pass then
the odd pass, with `initial_final` on layer 0 and the insertion operators on
the last layer only. -/
def forward_layer_tensors (betas gammas : List Ang) (tree : RTree) (ex : ExtraOps) (h : K)
    (layer : Nat) : Except Err (List LEntry × List LEntry) := do
  let β ← getAngle betas layer
  let γ ← getAngle gammas layer
  let te ← tree_tensor_network_layer β γ tree false (decide (layer = 0)) false
    (if layer = betas.length - 1 then ex else []) h
  let tOdd ← tree_tensor_network_layer β γ tree true false false
    (if layer = betas.length - 1 then ex else []) h
  pure (te, tOdd)

/-- The two layer-tensor computations of one iteration of the backward (`# QAOA
dagger circuit`) loop of `qaoa_tensor_network` (lines 258-276): the odd pass is
computed first, then the even pass (returned here as the pair
`(even, odd)`), with `dag` set, `initial_final` on layer 0, and no insertion
operators (the calls omit `extra_operators`, so the default `{}` is used). -/
def backward_layer_tensors (betas gammas : List Ang) (tree : RTree) (h : K)
    (layer : Nat) : Except Err (List LEntry × List LEntry) := do
  let β ← getAngle betas layer
  let γ ← getAngle gammas layer
  let tOdd ← tree_tensor_network_layer β γ tree true false true [] h
  let te ← tree_tensor_network_layer β γ tree false (decide (layer = 0)) true [] h
  pure (te, tOdd)

/-- The embedding of `qaoa_tensor_network(betas, gammas, tree, tree_root,
extra_operators)`: the forward loop over layers `0, …, L-1` followed by the
backward loop over layers `L-1, …, 0`; within every iteration of either loop
the even-pass tensors are handed to `update_tensors_by_root` first and then
the odd-pass tensors (lines 255-256 and 277-278). -/
def qaoa_tensor_network (betas gammas : List Ang) (tree : RTree) (ex : ExtraOps) (h : K) :
    Except Err TBR := do
  let fwd ← (List.range betas.length).foldlM (fun m l =>
    (forward_layer_tensors betas gammas tree ex h l).map (fun p =>
      update_tensors_by_root (update_tensors_by_root m p.1) p.2)) []
  (List.range betas.length).reverse.foldlM (fun m l =>
    (backward_layer_tensors betas gammas tree h l).map (fun p =>
      update_tensors_by_root (update_tensors_by_root m p.1) p.2)) fwd

/-- The sequence of tensor lists handed to `update_tensors_by_root` by
`qaoa_tensor_network`, in call order; `qaoa_tensor_network` is proved below to
be the left fold of `update_tensors_by_root` over this sequence. -/
def qaoa_passes (betas gammas : List Ang) (tree : RTree) (ex : ExtraOps) (h : K) :
    Except Err (List (List LEntry)) := do
  let fwd ← (List.range betas.length).mapM (fun l =>
    (forward_layer_tensors betas gammas tree ex h l).map (fun p => [p.1, p.2]))
  let bwd ← (List.range betas.length).reverse.mapM (fun l =>
    (backward_layer_tensors betas gammas tree h l).map (fun p => [p.1, p.2]))
  pure (fwd.flatten ++ bwd.flatten)

/-- The pass schedule the assembler actually follows, in total form: forward
layers `0, …, L-1` each contributing its even pass then its odd pass, then
backward layers `L-1, …, 0` each contributing its (dagger) even pass then its
(dagger) odd pass. -/
def assembler_schedule (betas gammas : List Ang) (tree : RTree) (ex : ExtraOps) (h : K) :
    List (List LEntry) :=
  ((List.range betas.length).map (fun l =>
    [layer_entries (angleAt betas l) (angleAt gammas l) tree false (decide (l = 0)) false
       (if l = betas.length - 1 then ex else []) h,
     layer_entries (angleAt betas l) (angleAt gammas l) tree true false false
       (if l = betas.length - 1 then ex else []) h])).flatten
  ++ ((List.range betas.length).reverse.map (fun l =>
    [layer_entries (angleAt betas l) (angleAt gammas l) tree false (decide (l = 0)) true [] h,
     layer_entries (angleAt betas l) (angleAt gammas l) tree true false true [] h])).flatten

/-- The pass schedule asserted by claim C3: identical to
`assembler_schedule` on the forward sweep, but with each backward layer
contributing its odd pass before its even pass. -/
def c3_claimed_schedule (betas gammas : List Ang) (tree : RTree) (ex : ExtraOps) (h : K) :
    List (List LEntry) :=
  ((List.range betas.length).map (fun l =>
    [layer_entries (angleAt betas l) (angleAt gammas l) tree false (decide (l = 0)) false
       (if l = betas.length - 1 then ex else []) h,
     layer_entries (angleAt betas l) (angleAt gammas l) tree true false false
       (if l = betas.length - 1 then ex else []) h])).flatten
  ++ ((List.range betas.length).reverse.map (fun l =>
    [layer_entries (angleAt betas l) (angleAt gammas l) tree true false true [] h,
     layer_entries (angleAt betas l) (angleAt gammas l) tree false (decide (l = 0)) true [] h])).flatten

/-- Extract the value of a successful layer computation (used only to spell
witnesses at concrete inputs, where success is checked by `decide`). -/
def okEntries (x : Except Err (List LEntry)) : List LEntry :=
  match x with
  | .ok l => l
  | .error _ => []

/-- Extract the value of a successful `qaoa_tensor_network` computation (used
only to spell witnesses at concrete inputs). -/
def okTBR (x : Except Err TBR) : TBR :=
  match x with
  | .ok m => m
  | .error _ => []

/-! ### Concrete inputs used by the witness theorems -/

/-- Witness tree: the degree-1, depth-1 regular prefix tree (a root with one
child). -/
def wTree : RTree := regular_prefix_tree 1 1

/-- Witness insertion-operator map: a diagonal operator on the root qubit. -/
def wEx : ExtraOps := [([], [[⟨11, 0⟩, 0], [0, ⟨13, 0⟩]])]

/-- Witness angle for `beta`. -/
def wB : Ang := ⟨2, 3⟩

/-- Witness angle for `gamma`. -/
def wG : Ang := ⟨5, 7⟩

/-- Witness layer output for claim C1 (even non-dag pass). -/
def c1wEs : List LEntry := okEntries (tree_tensor_network_layer wB wG wTree false false false wEx 17)

/-- First entry of the witness layer output for claim C1. -/
def c1wE : LEntry := c1wEs.headD dummyE

/-- Witness layer output for claim C2 (even dag pass). -/
def c2wEs : List LEntry := okEntries (tree_tensor_network_layer wB wG wTree false false true wEx 17)

/-- First entry of the witness layer output for claim C2. -/
def c2wE : LEntry := c2wEs.headD dummyE

/-- Witness layer output for claim C5 (even boundary pass). -/
def c5wEs : List LEntry := okEntries (tree_tensor_network_layer wB wG wTree false true false wEx 17)

/-- First entry of the witness layer output for claim C5. -/
def c5wE : LEntry := c5wEs.headD dummyE

/-! ### Basic facts about `Except`-valued list traversals -/

lemma mapM_ok_of_forall {α β : Type} (f : α → Except Err β) (g : α → β) :
    ∀ (l : List α), (∀ x ∈ l, f x = Except.ok (g x)) → l.mapM f = Except.ok (l.map g)
  | [], _ => rfl
  | x :: xs, hx => by
    rw [List.mapM_cons, hx x (by simp),
      mapM_ok_of_forall f g xs (fun y hy => hx y (by simp [hy]))]
    rfl

lemma exists_ok_of_mapM_ok {α β : Type} (f : α → Except Err β) :
    ∀ (l : List α) (r : List β), l.mapM f = Except.ok r → ∀ x ∈ l, ∃ y, f x = Except.ok y
  | [], _, _, x, hx => absurd hx (by simp)
  | a :: xs, r, hr, x, hx => by
    rw [List.mapM_cons] at hr
    cases ha : f a with
    | error e => rw [ha] at hr; exact absurd hr (by simp [Bind.bind, Except.bind])
    | ok y =>
      rw [ha] at hr
      cases hxs : xs.mapM f with
      | error e => rw [hxs] at hr; exact absurd hr (by simp [Bind.bind, Except.bind])
      | ok r' =>
        rcases List.mem_cons.mp hx with h1 | h2
        · exact ⟨y, h1 ▸ ha⟩
        · exact exists_ok_of_mapM_ok f xs r' hxs x h2

/-! ### Node resolution: `edge_choices_to_node` and `validPath` -/

lemma edge_from_ok_iff : ∀ (p : List Int) (t : RTree) (acc q : List Int),
    (edge_choices_to_node_from t acc p = Except.ok q ↔
      (validPath t p = true ∧ q = acc ++ p))
  | [], t, acc, q => by
    cases t with
    | node ks => simp [edge_choices_to_node_from, validPath, eq_comm]
  | c :: rest, .node ks, acc, q => by
    simp only [edge_choices_to_node_from, validPath, RTree.kids]
    cases hf : ks.find? (fun k => decide (k.1 = c)) with
    | none => simp
    | some k =>
      rw [edge_from_ok_iff rest k.2 (acc ++ [c]) q]
      simp

lemma edge_from_error_iff : ∀ (p : List Int) (t : RTree) (acc : List Int),
    ((∃ c, edge_choices_to_node_from t acc p = Except.error (Err.invalidPath c)) ↔
      validPath t p = false)
  | [], t, acc => by
    cases t with
    | node ks => simp [edge_choices_to_node_from, validPath]
  | c :: rest, .node ks, acc => by
    simp only [edge_choices_to_node_from, validPath, RTree.kids]
    cases hf : ks.find? (fun k => decide (k.1 = c)) with
    | none => simp
    | some k => rw [edge_from_error_iff rest k.2 (acc ++ [c])]

lemma depthKids_ge : ∀ (ks : List (Int × RTree)) (a : Int) (t : RTree),
    (a, t) ∈ ks → RTree.depth t + 1 ≤ depthKids ks
  | (b, u) :: rest, a, t, h => by
    rcases List.mem_cons.mp h with h1 | h2
    · cases h1
      simp only [depthKids]
      exact le_max_left _ _
    · exact le_trans (depthKids_ge rest a t h2) (by simp [depthKids])

lemma validPath_length_le : ∀ (p : List Int) (t : RTree),
    validPath t p = true → p.length ≤ RTree.depth t
  | [], t, _ => by simp
  | c :: rest, .node ks, h => by
    simp only [validPath] at h
    cases hf : ks.find? (fun k => decide (k.1 = c)) with
    | none => rw [hf] at h; exact absurd h (by simp)
    | some k =>
      rw [hf] at h
      have hm : (k.1, k.2) ∈ ks := by
        have := List.mem_of_find?_eq_some hf
        simpa using this
      have hd := depthKids_ge ks k.1 k.2 hm
      have hr := validPath_length_le rest k.2 h
      simp only [List.length_cons, RTree.depth]
      omega

/-- Supporting fact for C7: for every path strictly longer than the tree
depth, the guard prefix of `contract_children` fails inside
`edge_choices_to_node` (with an `invalidPath` error), before the
`pathTooDeep` check is ever reached — that check is unreachable. -/
lemma contract_check_deep (t : RTree) (p : List Int) (hp : RTree.depth t < p.length) :
    ∃ c, contract_children_check t p = Except.error (Err.invalidPath c) := by
  have hv : validPath t p = false := by
    cases hval : validPath t p with
    | false => rfl
    | true => exact absurd (validPath_length_le p t hval) (by omega)
  rcases (edge_from_error_iff p t []).mpr hv with ⟨c, hc⟩
  refine ⟨c, ?_⟩
  simp only [contract_children_check, edge_choices_to_node] at hc ⊢
  rw [hc]
  rfl

/-! ### Claims C6, C7, C9 -/

/-- C6, counterexample: on the tree generated by `regular_prefix_tree(3, 2)`
the path `[1, 2]` does not resolve to a grandchild as the claim's example
asserts; it fails with `InvalidPathError` on label `2`, because the non-root
internal nodes of a degree-3 prefix tree carry branch labels `0` and `1`
only. -/
theorem c6_resolve_counterexample :
    edge_choices_to_node (regular_prefix_tree 3 2) [1, 2] =
      Except.error (Err.invalidPath 2) ∧
    edge_choices_to_node (regular_prefix_tree 3 2) [1, 2] ≠ Except.ok [1, 2] := by
  exact ⟨by decide, by decide⟩

/-- C6 (amended): for every tree built by the prefix-tree generator and every
label path, `resolveNode` returns the node reached from the root by following,
at each step, the child whose branch label equals the next path element, and
it fails with `InvalidPathError` exactly when at some step no child carries
the requested label.  Because non-root internal nodes of a degree-`d` regular
prefix tree carry branch labels `0, …, d-2` only, the path `[1, 2]` on a
degree-3 depth-2 tree fails with `InvalidPathError`, while `[1, 1]` yields the
grandchild reached via labels 1 then 1; an unused path like `[5]` on a
degree-3 tree also fails with `InvalidPathError`. -/
theorem c6_resolve_amended :
    (∀ (degree depth : Nat) (p : List Int),
      (edge_choices_to_node (regular_prefix_tree degree depth) p = Except.ok p ↔
        validPath (regular_prefix_tree degree depth) p = true) ∧
      ((∃ c, edge_choices_to_node (regular_prefix_tree degree depth) p =
          Except.error (Err.invalidPath c)) ↔
        validPath (regular_prefix_tree degree depth) p = false)) ∧
    edge_choices_to_node (regular_prefix_tree 3 2) [1, 1] = Except.ok [1, 1] ∧
    edge_choices_to_node (regular_prefix_tree 3 2) [1, 2] =
      Except.error (Err.invalidPath 2) ∧
    edge_choices_to_node (regular_prefix_tree 3 2) [5] =
      Except.error (Err.invalidPath 5) := by
  refine ⟨fun degree depth p => ⟨?_, ?_⟩, by decide, by decide, by decide⟩
  · rw [edge_choices_to_node, edge_from_ok_iff]
    simp
  · rw [edge_choices_to_node, edge_from_error_iff]

/-- C7: the claim says a contraction request whose path is strictly longer
than the tree depth fails with `PathTooDeepError`.  On the code the node is
resolved before the depth guard runs, and a path longer than the tree depth
always walks past a leaf, so the call fails with `InvalidPathError` instead
and the `PathTooDeepError` raise is unreachable.  This theorem evaluates the
guard prefix at the failing input: the tree of `regular_prefix_tree(3, 1)`
has depth 1 and the path `[0, 0]` has length 2, yet the result is the
`invalid edge choice 0` error, not the `too high internal node depth: 2 >= 1`
error the claim predicts. -/
theorem c7_path_too_deep_eval :
    contract_children_check (regular_prefix_tree 3 1) [0, 0] =
      Except.error (Err.invalidPath 0) ∧
    contract_children_check (regular_prefix_tree 3 1) [0, 0] ≠
      Except.error (Err.pathTooDeep 2 1) := by
  exact ⟨by decide, by decide⟩

/-- C9: `qaoaTensorNetwork` is deterministic — two calls with identical
`betas`, `gammas`, tree, root and `extraOperators` (and the same numeric
constant for `1/sqrt(2)`) return identical mappings, with numerically
identical tensors in identical order.  The embedding is a pure function of
its arguments, which is faithful because the source reads `extra_operators`
only through `dict.get` (never mutating the shared `{}` default) and builds a
fresh `tensors_by_root` on every call, so no state survives a call. -/
theorem c9_deterministic (b1 g1 : List Ang) (t1 : RTree) (ex1 : ExtraOps) (h1 : K)
    (b2 g2 : List Ang) (t2 : RTree) (ex2 : ExtraOps) (h2 : K)
    (hb : b1 = b2) (hg : g1 = g2) (ht : t1 = t2) (hex : ex1 = ex2) (hh : h1 = h2) :
    qaoa_tensor_network b1 g1 t1 ex1 h1 = qaoa_tensor_network b2 g2 t2 ex2 h2 := by
  subst hb; subst hg; subst ht; subst hex; subst hh; rfl

/-- Witness for C9 at a concrete input. -/
theorem c9_deterministic_witness :
    qaoa_tensor_network [⟨2, 3⟩] [⟨5, 7⟩] (regular_prefix_tree 1 1) [] 11 =
      qaoa_tensor_network [⟨2, 3⟩] [⟨5, 7⟩] (regular_prefix_tree 1 1) [] 11 :=
  c9_deterministic _ _ _ _ _ _ _ _ _ _ rfl rfl rfl rfl rfl

/-! ### The Ising lookup always succeeds on declared qubits -/

lemma except_bind_ok {α β : Type} (a : α) (f : α → Except Err β) :
    (Except.ok a >>= f) = f a := rfl

lemma except_bind_error {α β : Type} (e : Err) (f : α → Except Err β) :
    (Except.error e >>= f) = Except.error e := rfl

lemma except_pure_eq_ok {α : Type} (a : α) : (pure a : Except Err α) = Except.ok a := rfl

lemma except_map_ok {α β : Type} (f : α → β) (a : α) :
    Except.map f (Except.ok a : Except Err α) = Except.ok (f a) := rfl

lemma except_map_error {α β : Type} (f : α → β) (e : Err) :
    Except.map f (Except.error e : Except Err α) = Except.error e := rfl

lemma qubit_to_idx_isSome (qs : List (List Int)) (q : List Int) (hq : q ∈ qs) :
    ∃ i, qubit_to_idx qs q = some i := by
  rcases List.mem_iff_getElem.mp hq with ⟨i, hi, rfl⟩
  have hien : i < qs.enum.length := by simpa [List.enum_length] using hi
  have hmem : (i, qs[i]) ∈ qs.enum := by
    have := List.getElem_mem hien
    rwa [List.getElem_enum] at this
  have : ∃ p ∈ qs.enum.reverse, (fun p => decide (p.2 = qs[i])) p = true := by
    exact ⟨(i, qs[i]), List.mem_reverse.mpr hmem, by simp⟩
  rcases Option.isSome_iff_exists.mp (List.find?_isSome.mpr this) with ⟨p, hp⟩
  exact ⟨p.1, by simp [qubit_to_idx, hp]⟩

lemma lookupIdx_ok_of_mem (qs : List (List Int)) (q : List Int) (hq : q ∈ qs) :
    lookupIdx qs q = Except.ok (qubitPos qs q) := by
  rcases qubit_to_idx_isSome qs q hq with ⟨i, hi⟩
  simp [lookupIdx, qubitPos, hi]

lemma ising_explicit (γ : Ang) (qs : List (List Int)) (es : List (List Int × List Int))
    (hq : qs ≠ []) (hv : ∀ e ∈ es, e.1 ∈ qs ∧ e.2 ∈ qs) :
    ising_rotation_matrix γ qs es = Except.ok
      (((es.map (fun e => (qubitPos qs e.1, qubitPos qs e.2))).map (fun p =>
        madd
          (kronList ((List.range qs.length).map (fun idx =>
            if idx = p.1 then scal γ.c eye2 else eye2)))
          (kronList ((List.range qs.length).map (fun idx =>
            if idx = p.1 then scal (-(imK * γ.s)) pauliZ
            else if idx = p.2 then pauliZ
            else eye2))))).foldl matmul (kronList (List.replicate qs.length eye2))) := by
  have hmap : es.mapM (fun e => do
      let i1 ← lookupIdx qs e.1
      let i2 ← lookupIdx qs e.2
      pure ((i1, i2) : Nat × Nat)) =
      Except.ok (es.map (fun e => (qubitPos qs e.1, qubitPos qs e.2))) := by
    apply mapM_ok_of_forall
    intro e he
    simp only [lookupIdx_ok_of_mem qs e.1 (hv e he).1, lookupIdx_ok_of_mem qs e.2 (hv e he).2,
      except_bind_ok]
    rfl
  have hq0 : ¬ qs.length = 0 := fun h0 => hq (List.length_eq_zero.mp h0)
  unfold ising_rotation_matrix
  rw [hmap, except_bind_ok]
  simp only [if_neg hq0]
  rfl

lemma ising_ok (γ : Ang) (qs : List (List Int)) (es : List (List Int × List Int))
    (hq : qs ≠ []) (hv : ∀ e ∈ es, e.1 ∈ qs ∧ e.2 ∈ qs) :
    ising_rotation_matrix γ qs es = Except.ok (isingD γ qs es) := by
  rw [ising_explicit γ qs es hq hv, isingD, ising_explicit γ qs es hq hv]

/-! ### The layer generator never fails, and its entries -/

lemma layer_node_tensor_eq (β γ : Ang) (odd ii dg : Bool) (ex : ExtraOps) (h : K)
    (path : List Int) (sub : RTree) :
    layer_node_tensor β γ odd ii dg ex h path sub =
      Except.ok (node_entry β γ odd ii dg ex h path sub) := by
  have hv : ∀ e ∈ ((RTree.kids sub).map (fun k => path ++ [k.1])).map
      (fun s => (path, s)),
      e.1 ∈ (path :: (RTree.kids sub).map (fun k => path ++ [k.1])) ∧
      e.2 ∈ (path :: (RTree.kids sub).map (fun k => path ++ [k.1])) := by
    intro e he
    rcases List.mem_map.mp he with ⟨s, hs, rfl⟩
    exact ⟨List.mem_cons_self _ _, List.mem_cons_of_mem _ hs⟩
  have hi := ising_ok γ _ _ (List.cons_ne_nil _ _) hv
  simp only [layer_node_tensor, node_entry, hi, except_bind_ok]
  cases ii <;> cases dg <;> simp [tensorize, composeMatrix] <;> rfl

lemma tree_layer_eq (β γ : Ang) (tree : RTree) (odd ii dg : Bool) (ex : ExtraOps) (h : K) :
    tree_tensor_network_layer β γ tree odd ii dg ex h =
      Except.ok (layer_entries β γ tree odd ii dg ex h) := by
  simp only [tree_tensor_network_layer, layer_entries]
  rw [mapM_ok_of_forall _
    (fun d => (tree.atDepth d).map (fun pr =>
      node_entry (if dg then Ang.neg β else β) (if dg then Ang.neg γ else γ)
        odd ii dg ex h pr.1 pr.2)) _ ?_]
  · rfl
  · intro d _
    exact mapM_ok_of_forall _ _ _ (fun pr _ => layer_node_tensor_eq _ _ _ _ _ _ _ _ _)

lemma mem_layer_entries {β γ : Ang} {tree : RTree} {odd ii dg : Bool} {ex : ExtraOps}
    {h : K} {e : LEntry} (he : e ∈ layer_entries β γ tree odd ii dg ex h) :
    ∃ d pr, pr ∈ RTree.atDepth tree d ∧ d < RTree.depth tree ∧
      d % 2 = (if odd then 1 else 0) ∧
      e = node_entry (if dg then Ang.neg β else β) (if dg then Ang.neg γ else γ)
        odd ii dg ex h pr.1 pr.2 := by
  simp only [layer_entries] at he
  rcases List.mem_flatten.mp he with ⟨l, hl, hel⟩
  rcases List.mem_map.mp hl with ⟨d, hd, rfl⟩
  rcases List.mem_filter.mp hd with ⟨hdr, hdp⟩
  rcases List.mem_map.mp hel with ⟨pr, hpr, rfl⟩
  exact ⟨d, pr, hpr, List.mem_range.mp hdr, by simpa using hdp, rfl⟩

lemma node_entry_node (β γ : Ang) (odd ii dg : Bool) (ex : ExtraOps) (h : K)
    (path : List Int) (sub : RTree) :
    (node_entry β γ odd ii dg ex h path sub).node = path := rfl

lemma node_entry_succs (β γ : Ang) (odd ii dg : Bool) (ex : ExtraOps) (h : K)
    (path : List Int) (sub : RTree) :
    (node_entry β γ odd ii dg ex h path sub).succs =
      (RTree.kids sub).map (fun k => path ++ [k.1]) := rfl

/-! ### Path lengths of `atDepth` -/

lemma atDepth_length_all : ∀ d : Nat,
    (∀ (t : RTree) pr, pr ∈ RTree.atDepth t d → pr.1.length = d) ∧
    (∀ (ks : List (Int × RTree)) pr, pr ∈ atDepthKids ks d → pr.1.length = d + 1) := by
  intro d
  induction d with
  | zero =>
    have h1 : ∀ (t : RTree) pr, pr ∈ RTree.atDepth t 0 → pr.1.length = 0 := by
      intro t pr hpr
      cases t with
      | node ks =>
        simp only [RTree.atDepth, List.mem_singleton] at hpr
        simp [hpr]
    refine ⟨h1, ?_⟩
    intro ks
    induction ks with
    | nil => intro pr hpr; simp [atDepthKids] at hpr
    | cons k rest ih =>
      intro pr hpr
      obtain ⟨a, t⟩ := k
      simp only [atDepthKids, List.mem_append] at hpr
      rcases hpr with hl | hr
      · rcases List.mem_map.mp hl with ⟨q, hq, rfl⟩
        simp [h1 t q hq]
      · exact ih pr hr
  | succ d hd =>
    have h1 : ∀ (t : RTree) pr, pr ∈ RTree.atDepth t (d + 1) → pr.1.length = d + 1 := by
      intro t pr hpr
      cases t with
      | node ks =>
        simp only [RTree.atDepth] at hpr
        exact hd.2 ks pr hpr
    refine ⟨h1, ?_⟩
    intro ks
    induction ks with
    | nil => intro pr hpr; simp [atDepthKids] at hpr
    | cons k rest ih =>
      intro pr hpr
      obtain ⟨a, t⟩ := k
      simp only [atDepthKids, List.mem_append] at hpr
      rcases hpr with hl | hr
      · rcases List.mem_map.mp hl with ⟨q, hq, rfl⟩
        simp [h1 t q hq]
      · exact ih pr hr

lemma atDepth_path_length {t : RTree} {d : Nat} {pr : List Int × RTree}
    (h : pr ∈ RTree.atDepth t d) : pr.1.length = d := (atDepth_length_all d).1 t pr h

/-! ### Claims C1, C2, C5 -/

/-- C1: for every call to the layer tensor generator and every emitted entry,
when `odd` is true the mixer factor `cos(β/2)·I - i·sin(β/2)·X` is one
Kronecker factor for every qubit of `[node] + children` and the
extra-operator lookup is one Kronecker factor for every qubit in
`[node] + children`; when `odd` is false and the node is the tree root (the
empty label path), the mixer factor and the extra-operator lookup sit on the
node only, with identity factors on all children; in every other case both
factor lists are all-identity, so the mixer matrix and the extra-operator
matrix are the full identity.  (The angles are the negated ones when `dag` is
set, matching the generator's preamble.) -/
theorem c1_mixer_extra_coverage (β γ : Ang) (tree : RTree) (odd ii dg : Bool)
    (ex : ExtraOps) (h : K) (es : List LEntry)
    (hes : tree_tensor_network_layer β γ tree odd ii dg ex h = Except.ok es)
    (e : LEntry) (he : e ∈ es) :
    e.tensor = tensorize ii dg h e.succs.length
      (composeMatrix dg
        (kronList
          (if odd = true then (e.node :: e.succs).map (fun q => extraGet ex q)
           else if e.node = [] then extraGet ex e.node :: List.replicate e.succs.length eye2
           else List.replicate (1 + e.succs.length) eye2))
        (kronList
          (if odd = true then
            List.replicate (e.succs.length + 1) (mixer2 (if dg then Ang.neg β else β))
           else if e.node = [] then
            mixer2 (if dg then Ang.neg β else β) :: List.replicate e.succs.length eye2
           else List.replicate (1 + e.succs.length) eye2))
        (isingD (if dg then Ang.neg γ else γ) (e.node :: e.succs)
          (e.succs.map (fun s => (e.node, s))))) := by
  rw [tree_layer_eq] at hes
  obtain rfl : layer_entries β γ tree odd ii dg ex h = es := by simpa using hes
  obtain ⟨d, pr, hpr, _, _, rfl⟩ := mem_layer_entries he
  by_cases hodd : odd = true <;> by_cases hroot : pr.1 = [] <;>
    cases dg <;>
      simp [node_entry, mixer_matrix_factors, extra_matrix_factors, hodd, hroot]

/-- Witness for C1 at a concrete input (the root entry of an even non-dag
boundaryless layer on the degree-1 depth-1 tree). -/
theorem c1_mixer_extra_coverage_witness :
    c1wE.tensor = tensorize false false 17 c1wE.succs.length
      (composeMatrix false
        (kronList
          (if false = true then (c1wE.node :: c1wE.succs).map (fun q => extraGet wEx q)
           else if c1wE.node = [] then extraGet wEx c1wE.node :: List.replicate c1wE.succs.length eye2
           else List.replicate (1 + c1wE.succs.length) eye2))
        (kronList
          (if false = true then
            List.replicate (c1wE.succs.length + 1) (mixer2 (if false then Ang.neg wB else wB))
           else if c1wE.node = [] then
            mixer2 (if false then Ang.neg wB else wB) :: List.replicate c1wE.succs.length eye2
           else List.replicate (1 + c1wE.succs.length) eye2))
        (isingD (if false then Ang.neg wG else wG) (c1wE.node :: c1wE.succs)
          (c1wE.succs.map (fun s => (c1wE.node, s))))) :=
  c1_mixer_extra_coverage wB wG wTree false false false wEx 17 c1wEs (by decide) c1wE (by decide)

/-- C2: for every call to the layer tensor generator with `dag = false`, the
per-node composed matrix is `extraOpMatrix · mixerMatrix · isingMatrix` at the
given `β` and `γ`; with `dag = true` it is
`isingMatrix · mixerMatrix · extraOpMatrix` at `-β` and `-γ` — both the angle
negation and the reversal of the factor order happen, for every node of every
layer. -/
theorem c2_dag_composition (β γ : Ang) (tree : RTree) (odd ii dg : Bool)
    (ex : ExtraOps) (h : K) (es : List LEntry)
    (hes : tree_tensor_network_layer β γ tree odd ii dg ex h = Except.ok es)
    (e : LEntry) (he : e ∈ es) :
    e.tensor = tensorize ii dg h e.succs.length
      (if dg then
        matmul (matmul
          (isingD (Ang.neg γ) (e.node :: e.succs) (e.succs.map (fun s => (e.node, s))))
          (kronList (mixer_matrix_factors (Ang.neg β) odd (decide (e.node = [])) e.succs.length)))
          (kronList (extra_matrix_factors ex odd (decide (e.node = [])) e.node e.succs))
      else
        matmul (matmul
          (kronList (extra_matrix_factors ex odd (decide (e.node = [])) e.node e.succs))
          (kronList (mixer_matrix_factors β odd (decide (e.node = [])) e.succs.length)))
          (isingD γ (e.node :: e.succs) (e.succs.map (fun s => (e.node, s))))) := by
  rw [tree_layer_eq] at hes
  obtain rfl : layer_entries β γ tree odd ii dg ex h = es := by simpa using hes
  obtain ⟨d, pr, hpr, _, _, rfl⟩ := mem_layer_entries he
  cases dg <;> simp [node_entry, composeMatrix]

/-- Witness for C2 at a concrete input (the root entry of an even dag
boundaryless layer on the degree-1 depth-1 tree). -/
theorem c2_dag_composition_witness :
    c2wE.tensor = tensorize false true 17
      c2wE.succs.length
      (matmul (matmul
        (isingD (Ang.neg wG) (c2wE.node :: c2wE.succs) (c2wE.succs.map (fun s => (c2wE.node, s))))
        (kronList (mixer_matrix_factors (Ang.neg wB) false (decide (c2wE.node = [])) c2wE.succs.length)))
        (kronList (extra_matrix_factors wEx false (decide (c2wE.node = [])) c2wE.node c2wE.succs))) :=
  c2_dag_composition wB wG wTree false false true wEx 17 c2wEs (by decide) c2wE (by decide)

/-- C5: every entry emitted by the layer tensor generator for a node with `m`
children has, when `initial_final` is true, exactly `m + 1` legs each of
dimension 2, its data obtained by right-multiplying the composed matrix by the
uniform superposition vector when `dag = false` and by left-multiplying by its
transpose when `dag = true`; and, when `initial_final` is false, exactly
`2·(m + 1)` legs each of dimension 2, its data the composed matrix itself
(row-major).  The entry's successor list is exactly the children list of the
processed node. -/
theorem c5_boundary_legs (β γ : Ang) (tree : RTree) (odd ii dg : Bool)
    (ex : ExtraOps) (h : K) (es : List LEntry)
    (hes : tree_tensor_network_layer β γ tree odd ii dg ex h = Except.ok es)
    (e : LEntry) (he : e ∈ es) :
    (e.tensor.shape = if ii then List.replicate (e.succs.length + 1) 2
      else List.replicate (2 * (e.succs.length + 1)) 2) ∧
    (e.tensor.shape.length = if ii then e.succs.length + 1 else 2 * (e.succs.length + 1)) ∧
    (∀ dim ∈ e.tensor.shape, dim = 2) ∧
    (∃ sub, (e.node, sub) ∈ RTree.atDepth tree e.node.length ∧
      e.succs = (RTree.kids sub).map (fun k => e.node ++ [k.1])) ∧
    (e.tensor.data =
      if ii then
        (if dg then
          vecMat (kronVecs (List.replicate (e.succs.length + 1) (plus2 h)))
            (composeMatrix dg
              (kronList (extra_matrix_factors ex odd (decide (e.node = [])) e.node e.succs))
              (kronList (mixer_matrix_factors (if dg then Ang.neg β else β) odd
                (decide (e.node = [])) e.succs.length))
              (isingD (if dg then Ang.neg γ else γ) (e.node :: e.succs)
                (e.succs.map (fun s => (e.node, s)))))
        else
          matVec
            (composeMatrix dg
              (kronList (extra_matrix_factors ex odd (decide (e.node = [])) e.node e.succs))
              (kronList (mixer_matrix_factors (if dg then Ang.neg β else β) odd
                (decide (e.node = [])) e.succs.length))
              (isingD (if dg then Ang.neg γ else γ) (e.node :: e.succs)
                (e.succs.map (fun s => (e.node, s)))))
            (kronVecs (List.replicate (e.succs.length + 1) (plus2 h))))
      else
        (composeMatrix dg
          (kronList (extra_matrix_factors ex odd (decide (e.node = [])) e.node e.succs))
          (kronList (mixer_matrix_factors (if dg then Ang.neg β else β) odd
            (decide (e.node = [])) e.succs.length))
          (isingD (if dg then Ang.neg γ else γ) (e.node :: e.succs)
            (e.succs.map (fun s => (e.node, s))))).flatten) := by
  rw [tree_layer_eq] at hes
  obtain rfl : layer_entries β γ tree odd ii dg ex h = es := by simpa using hes
  obtain ⟨d, pr, hpr, _, _, rfl⟩ := mem_layer_entries he
  obtain ⟨p, sub⟩ := pr
  have hlen : p.length = d := by simpa using atDepth_path_length hpr
  refine ⟨?_, ?_, ?_, ⟨sub, ?_, ?_⟩, ?_⟩
  · cases ii <;> simp [node_entry, tensorize]
  · cases ii <;> simp [node_entry, tensorize]
  · intro dim hdim
    cases ii <;> simp [node_entry, tensorize] at hdim <;> tauto
  · simpa [node_entry, hlen] using hpr
  · simp [node_entry]
  · cases ii <;> cases dg <;> simp [node_entry, tensorize]

/-- Witness for C5 at a concrete input (the root entry of an even non-dag
boundary layer on the degree-1 depth-1 tree). -/
theorem c5_boundary_legs_witness :
    (c5wE.tensor.shape = if true then List.replicate (c5wE.succs.length + 1) 2
      else List.replicate (2 * (c5wE.succs.length + 1)) 2) ∧
    (c5wE.tensor.shape.length = if true then c5wE.succs.length + 1
      else 2 * (c5wE.succs.length + 1)) ∧
    (∀ dim ∈ c5wE.tensor.shape, dim = 2) ∧
    (∃ sub, (c5wE.node, sub) ∈ RTree.atDepth wTree c5wE.node.length ∧
      c5wE.succs = (RTree.kids sub).map (fun k => c5wE.node ++ [k.1])) ∧
    (c5wE.tensor.data =
      if true then
        (if false then
          vecMat (kronVecs (List.replicate (c5wE.succs.length + 1) (plus2 17)))
            (composeMatrix false
              (kronList (extra_matrix_factors wEx false (decide (c5wE.node = [])) c5wE.node c5wE.succs))
              (kronList (mixer_matrix_factors (if false then Ang.neg wB else wB) false
                (decide (c5wE.node = [])) c5wE.succs.length))
              (isingD (if false then Ang.neg wG else wG) (c5wE.node :: c5wE.succs)
                (c5wE.succs.map (fun s => (c5wE.node, s)))))
        else
          matVec
            (composeMatrix false
              (kronList (extra_matrix_factors wEx false (decide (c5wE.node = [])) c5wE.node c5wE.succs))
              (kronList (mixer_matrix_factors (if false then Ang.neg wB else wB) false
                (decide (c5wE.node = [])) c5wE.succs.length))
              (isingD (if false then Ang.neg wG else wG) (c5wE.node :: c5wE.succs)
                (c5wE.succs.map (fun s => (c5wE.node, s)))))
            (kronVecs (List.replicate (c5wE.succs.length + 1) (plus2 17))))
      else
        (composeMatrix false
          (kronList (extra_matrix_factors wEx false (decide (c5wE.node = [])) c5wE.node c5wE.succs))
          (kronList (mixer_matrix_factors (if false then Ang.neg wB else wB) false
            (decide (c5wE.node = [])) c5wE.succs.length))
          (isingD (if false then Ang.neg wG else wG) (c5wE.node :: c5wE.succs)
            (c5wE.succs.map (fun s => (c5wE.node, s))))).flatten) :=
  c5_boundary_legs wB wG wTree false true false wEx 17 c5wEs (by decide) c5wE (by decide)

/-! ### Matrix dimensions and the `UnknownQubitError` condition (C8) -/

lemma mem_zipWith_exists {α β γ : Type} (f : α → β → γ) :
    ∀ (l1 : List α) (l2 : List β) (x : γ), x ∈ List.zipWith f l1 l2 →
      ∃ a, a ∈ l1 ∧ ∃ b, b ∈ l2 ∧ x = f a b
  | [], _, x, hx => absurd hx (by simp)
  | _ :: _, [], x, hx => absurd hx (by simp)
  | a :: l1, b :: l2, x, hx => by
    rcases List.mem_cons.mp hx with h | h
    · exact ⟨a, by simp, b, by simp, h⟩
    · rcases mem_zipWith_exists f l1 l2 x h with ⟨a1, ha, b1, hb, rfl⟩
      exact ⟨a1, by simp [ha], b1, by simp [hb], rfl⟩

lemma length_flatMap_const {α β : Type} (c : Nat) :
    ∀ (l : List α) (f : α → List β), (∀ x ∈ l, (f x).length = c) →
      (l.flatMap f).length = l.length * c
  | [], _, _ => by simp
  | a :: l, f, h => by
    rw [List.flatMap_cons, List.length_append, h a (by simp),
      length_flatMap_const c l f (fun x hx => h x (by simp [hx]))]
    simp [List.length_cons]
    ring

lemma dims_eye2 : MatDims eye2 2 2 := ⟨rfl, by decide⟩

lemma dims_pauliX : MatDims pauliX 2 2 := ⟨rfl, by decide⟩

lemma dims_pauliZ : MatDims pauliZ 2 2 := ⟨rfl, by decide⟩

lemma dims_scal (a : K) {A : Mat} {r c : Nat} (h : MatDims A r c) : MatDims (scal a A) r c := by
  refine ⟨by simp [scal, h.1], ?_⟩
  intro row hrow
  rcases List.mem_map.mp hrow with ⟨ra, hra, rfl⟩
  simp [h.2 ra hra]

lemma dims_madd {A B : Mat} {r c : Nat} (hA : MatDims A r c) (hB : MatDims B r c) :
    MatDims (madd A B) r c := by
  refine ⟨by simp [madd, List.length_zipWith, hA.1, hB.1], ?_⟩
  intro row hrow
  rcases mem_zipWith_exists _ A B row hrow with ⟨ra, hra, rb, hrb, rfl⟩
  simp [List.length_zipWith, hA.2 ra hra, hB.2 rb hrb]

lemma dims_msub {A B : Mat} {r c : Nat} (hA : MatDims A r c) (hB : MatDims B r c) :
    MatDims (msub A B) r c := by
  refine ⟨by simp [msub, List.length_zipWith, hA.1, hB.1], ?_⟩
  intro row hrow
  rcases mem_zipWith_exists _ A B row hrow with ⟨ra, hra, rb, hrb, rfl⟩
  simp [List.length_zipWith, hA.2 ra hra, hB.2 rb hrb]

lemma dims_kron {A B : Mat} {r1 c1 r2 c2 : Nat} (hA : MatDims A r1 c1) (hB : MatDims B r2 c2) :
    MatDims (kron A B) (r1 * r2) (c1 * c2) := by
  refine ⟨?_, ?_⟩
  · rw [kron, length_flatMap_const r2 A _ (fun ra _ => by simp [hB.1]), hA.1]
  · intro row hrow
    rw [kron] at hrow
    rcases List.mem_flatMap.mp hrow with ⟨ra, hra, hrow2⟩
    rcases List.mem_map.mp hrow2 with ⟨rb, hrb, rfl⟩
    rw [length_flatMap_const c2 ra _ (fun x _ => by simp [hB.2 rb hrb]), hA.2 ra hra]

lemma dims_foldl_kron : ∀ (l : List Mat) (A : Mat) (r c : Nat), MatDims A r c →
    (∀ M ∈ l, MatDims M 2 2) →
    MatDims (l.foldl kron A) (r * 2 ^ l.length) (c * 2 ^ l.length)
  | [], A, r, c, hA, _ => by simpa using hA
  | M :: l, A, r, c, hA, hl => by
    have h2 := hl M (by simp)
    have hrec := dims_foldl_kron l (kron A M) (r * 2) (c * 2) (dims_kron hA h2)
      (fun N hN => hl N (by simp [hN]))
    simp only [List.foldl_cons]
    have e1 : r * 2 * 2 ^ l.length = r * 2 ^ (M :: l).length := by
      simp [List.length_cons, pow_succ]; ring
    have e2 : c * 2 * 2 ^ l.length = c * 2 ^ (M :: l).length := by
      simp [List.length_cons, pow_succ]; ring
    rw [e1, e2] at hrec
    exact hrec

lemma dims_kronList {l : List Mat} (h : ∀ M ∈ l, MatDims M 2 2) :
    MatDims (kronList l) (2 ^ l.length) (2 ^ l.length) := by
  have := dims_foldl_kron l [[1]] 1 1 ⟨rfl, by decide⟩ h
  simpa [kronList] using this

lemma dims_matmul {A B : Mat} {r k k2 c : Nat} (hA : MatDims A r k) (hB : MatDims B k2 c)
    (hk : 0 < k2) : MatDims (matmul A B) r c := by
  have hhead : (B.headD []).length = c := by
    cases B with
    | nil => exact absurd hB.1 (by simp; omega)
    | cons b bs => exact hB.2 b (by simp)
  refine ⟨by simp [matmul, hA.1], ?_⟩
  intro row hrow
  rcases List.mem_map.mp hrow with ⟨ra, hra, rfl⟩
  simp only [List.length_map, List.length_range]
  exact hhead

lemma dims_foldl_matmul : ∀ (rots : List Mat) (A : Mat) (n : Nat), MatDims A (2 ^ n) (2 ^ n) →
    (∀ R ∈ rots, MatDims R (2 ^ n) (2 ^ n)) → MatDims (rots.foldl matmul A) (2 ^ n) (2 ^ n)
  | [], A, n, hA, _ => hA
  | R :: rots, A, n, hA, hl => by
    simp only [List.foldl_cons]
    exact dims_foldl_matmul rots (matmul A R) n
      (dims_matmul hA (hl R (by simp)) (pow_pos (by omega) n))
      (fun N hN => hl N (by simp [hN]))

lemma mem_snd_of_mem_enum {qs : List (List Int)} {p : Nat × List Int} (h : p ∈ qs.enum) :
    p.2 ∈ qs := by
  obtain ⟨i, x⟩ := p
  rcases List.mem_enum h with ⟨hi, hx⟩
  simp only
  rw [hx]
  exact List.getElem_mem hi

lemma qubit_to_idx_none {qs : List (List Int)} {q : List Int} (h : q ∉ qs) :
    qubit_to_idx qs q = none := by
  rw [qubit_to_idx, List.find?_eq_none.mpr, Option.map_none']
  intro p hp
  simp only [decide_eq_true_eq]
  intro hpq
  exact h (hpq ▸ mem_snd_of_mem_enum (List.mem_reverse.mp hp))

lemma lookupIdx_error {qs : List (List Int)} {q : List Int} (h : q ∉ qs) :
    lookupIdx qs q = Except.error Err.unknownQubit := by
  simp [lookupIdx, qubit_to_idx_none h]

lemma edge_mapM_error (qs : List (List Int)) : ∀ (es : List (List Int × List Int)),
    edgesValid qs es = false →
    es.mapM (fun e => do
      let i1 ← lookupIdx qs e.1
      let i2 ← lookupIdx qs e.2
      pure ((i1, i2) : Nat × Nat)) = Except.error Err.unknownQubit
  | [], hv => by simp [edgesValid] at hv
  | e :: es, hv => by
    rw [List.mapM_cons]
    by_cases h1 : e.1 ∈ qs
    · by_cases h2 : e.2 ∈ qs
      · have hes : edgesValid qs es = false := by
          have hv2 := hv
          simp [edgesValid, List.all_cons, h1, h2] at hv2
          simpa [edgesValid] using hv2
        have hrec := edge_mapM_error qs es hes
        simp only [except_pure_eq_ok] at hrec
        simp only [lookupIdx_ok_of_mem qs e.1 h1, lookupIdx_ok_of_mem qs e.2 h2,
          except_pure_eq_ok, except_bind_ok]
        rw [hrec]
        rfl
      · simp only [lookupIdx_ok_of_mem qs e.1 h1, lookupIdx_error h2,
          except_pure_eq_ok, except_bind_ok, except_bind_error]
    · simp only [lookupIdx_error h1, except_bind_error]

/-! ### Claim C8 -/

/-- C8, counterexample: the claim asserts that whenever every edge endpoint
occurs in the qubit list, no error is raised.  With an empty qubit list and
no edges every (vacuously, zero) edge endpoint occurs in the qubit list, yet
the call fails: the identity seed `reduce(np.kron, [np.eye(2)] * len(qubits))`
of line 120 is `reduce` of an empty sequence with no initializer, a
`TypeError`. -/
theorem c8_unknown_qubit_counterexample :
    edgesValid [] [] = true ∧
    ising_rotation_matrix ⟨2, 3⟩ [] [] = Except.error Err.typeErr ∧
    ising_rotation_matrix ⟨2, 3⟩ [] [] ≠ Except.error Err.unknownQubit := by
  exact ⟨by decide, by decide, by decide⟩

/-- C8 (amended): for a nonempty declared qubit list, a call to
`ising_rotation_matrix` in which some edge references a qubit that does not
occur in the qubit list fails with `UnknownQubitError` (the `KeyError` of the
`qubit_to_idx` lookup); when every edge endpoint occurs in the qubit list, no
error is raised and a `2^n × 2^n` matrix is returned, where `n` is the number
of declared qubits.  (With an empty qubit list the call raises `TypeError`
instead, from `reduce(np.kron, [])` on line 120.) -/
theorem c8_unknown_qubit_validation (γ : Ang) (qubits : List (List Int))
    (edges : List (List Int × List Int)) (hqne : qubits ≠ []) :
    if edgesValid qubits edges then
      ∃ M, ising_rotation_matrix γ qubits edges = Except.ok M ∧
        MatDims M (2 ^ qubits.length) (2 ^ qubits.length)
    else ising_rotation_matrix γ qubits edges = Except.error Err.unknownQubit := by
  cases hval : edgesValid qubits edges with
  | false =>
    simp only [hval, Bool.false_eq_true, if_false]
    unfold ising_rotation_matrix
    rw [edge_mapM_error qubits edges hval]
    rfl
  | true =>
    simp only [hval, if_true]
    have hv : ∀ e ∈ edges, e.1 ∈ qubits ∧ e.2 ∈ qubits := by
      intro e he
      have := List.all_eq_true.mp hval e he
      simpa using this
    refine ⟨_, ising_explicit γ qubits edges hqne hv, ?_⟩
    apply dims_foldl_matmul
    · have := dims_kronList (l := List.replicate qubits.length eye2)
        (fun M hM => by rw [List.eq_of_mem_replicate hM]; exact dims_eye2)
      simpa using this
    · intro R hR
      rcases List.mem_map.mp hR with ⟨p, _, rfl⟩
      apply dims_madd
      · have := dims_kronList (l := (List.range qubits.length).map (fun idx =>
          if idx = p.1 then scal γ.c eye2 else eye2)) (fun M hM => by
            rcases List.mem_map.mp hM with ⟨i, _, rfl⟩
            by_cases hip : i = p.1
            · rw [if_pos hip]
              exact dims_scal _ dims_eye2
            · rw [if_neg hip]
              exact dims_eye2)
        simpa using this
      · have := dims_kronList (l := (List.range qubits.length).map (fun idx =>
          if idx = p.1 then scal (-(imK * γ.s)) pauliZ
          else if idx = p.2 then pauliZ
          else eye2)) (fun M hM => by
            rcases List.mem_map.mp hM with ⟨i, _, rfl⟩
            by_cases hip : i = p.1
            · rw [if_pos hip]
              exact dims_scal _ dims_pauliZ
            · by_cases hiq : i = p.2
              · rw [if_neg hip, if_pos hiq]
                exact dims_pauliZ
              · rw [if_neg hip, if_neg hiq]
                exact dims_eye2)
        simpa using this

/-- Witness for the amended C8 at a concrete input: one declared qubit and an
edge referencing an undeclared qubit, exercising the `UnknownQubitError`
branch. -/
theorem c8_unknown_qubit_validation_witness :
    ([[0]] : List (List Int)) ≠ [] ∧
    (if edgesValid [[0]] [([0], [1])] then
      ∃ M, ising_rotation_matrix ⟨2, 3⟩ [[0]] [([0], [1])] = Except.ok M ∧
        MatDims M (2 ^ ([[0]] : List (List Int)).length)
          (2 ^ ([[0]] : List (List Int)).length)
    else ising_rotation_matrix ⟨2, 3⟩ [[0]] [([0], [1])] =
      Except.error Err.unknownQubit) :=
  ⟨by decide, c8_unknown_qubit_validation ⟨2, 3⟩ [[0]] [([0], [1])] (by decide)⟩

/-! ### Scalars pull out of Kronecker folds (C4) -/

lemma kron_scal_left (a : K) (A B : Mat) : kron (scal a A) B = scal a (kron A B) := by
  simp [kron, scal, List.flatMap_map, List.map_flatMap, List.map_map, Function.comp_def,
    mul_assoc]

lemma kron_scal_right (a : K) (A B : Mat) : kron A (scal a B) = scal a (kron A B) := by
  simp [kron, scal, List.flatMap_map, List.map_flatMap, List.map_map, Function.comp_def,
    mul_assoc, mul_left_comm]

lemma foldl_kron_scal (a : K) : ∀ (l : List Mat) (A : Mat),
    l.foldl kron (scal a A) = scal a (l.foldl kron A)
  | [], _ => rfl
  | M :: l, A => by
    rw [List.foldl_cons, List.foldl_cons, kron_scal_left, foldl_kron_scal a l (kron A M)]

lemma map_fun_const {α β : Type} (b : β) : ∀ (l : List α),
    l.map (fun _ => b) = List.replicate l.length b
  | [] => rfl
  | a :: l => by simp [map_fun_const b l, List.replicate_succ]

lemma foldl_kron_ite_scal (a : K) (f g : Nat → Mat) (p : Nat)
    (hg : ∀ i, g i = if i = p then scal a (f i) else f i) :
    ∀ (l : List Nat) (A : Mat), p ∈ l → l.Nodup →
    (l.map g).foldl kron A = scal a ((l.map f).foldl kron A)
  | [], _, hp, _ => absurd hp (by simp)
  | x :: l, A, hp, hnd => by
    by_cases hxp : x = p
    · subst hxp
      have hnotin : x ∉ l := (List.nodup_cons.mp hnd).1
      have hmap : l.map g = l.map f := by
        apply List.map_congr_left
        intro i hi
        rw [hg i, if_neg (by intro hix; exact hnotin (hix ▸ hi))]
      rw [List.map_cons, List.map_cons, List.foldl_cons, List.foldl_cons, hmap, hg x,
        if_pos rfl, kron_scal_right, foldl_kron_scal]
    · have hp2 : p ∈ l := by
        rcases List.mem_cons.mp hp with hc | hc
        · exact absurd hc.symm hxp
        · exact hc
      rw [List.map_cons, List.map_cons, List.foldl_cons, List.foldl_cons, hg x, if_neg hxp]
      exact foldl_kron_ite_scal a f g p hg l (kron A (f x)) hp2 (List.nodup_cons.mp hnd).2

lemma qubitPos_lt {qs : List (List Int)} {q : List Int} (hq : q ∈ qs) :
    qubitPos qs q < qs.length := by
  rcases qubit_to_idx_isSome qs q hq with ⟨i, hi⟩
  rw [qubitPos, hi, Option.getD_some]
  rw [qubit_to_idx] at hi
  rcases Option.map_eq_some'.mp hi with ⟨p, hp, rfl⟩
  have hmem := List.mem_reverse.mp (List.mem_of_find?_eq_some hp)
  obtain ⟨n, x⟩ := p
  exact (List.mem_enum hmem).1

/-- Supporting fact: on a duplicate-free qubit list, `qubitPos` really is the
position of the qubit in the list (the entry there is the qubit itself). -/
lemma qubitPos_get {qs : List (List Int)} {q : List Int} (hq : q ∈ qs) :
    qs.get? (qubitPos qs q) = some q := by
  rcases qubit_to_idx_isSome qs q hq with ⟨i, hi⟩
  rw [qubitPos, hi, Option.getD_some]
  rw [qubit_to_idx] at hi
  rcases Option.map_eq_some'.mp hi with ⟨p, hp, rfl⟩
  have hpred := List.find?_some hp
  have hmem := List.mem_reverse.mp (List.mem_of_find?_eq_some hp)
  obtain ⟨n, x⟩ := p
  obtain ⟨hn, hx⟩ := List.mem_enum hmem
  have hxq : x = q := by simpa using hpred
  rw [List.get?_eq_getElem?, List.getElem?_eq_getElem hn]
  simp [← hx, hxq]

lemma rotation_eq_edge_factor (γ : Ang) (qs : List (List Int)) (e : List Int × List Int)
    (h1 : e.1 ∈ qs) (_h2 : e.2 ∈ qs) :
    madd
      (kronList ((List.range qs.length).map (fun idx =>
        if idx = qubitPos qs e.1 then scal γ.c eye2 else eye2)))
      (kronList ((List.range qs.length).map (fun idx =>
        if idx = qubitPos qs e.1 then scal (-(imK * γ.s)) pauliZ
        else if idx = qubitPos qs e.2 then pauliZ
        else eye2))) = ising_edge_factor γ qs e := by
  have hp1 : qubitPos qs e.1 ∈ List.range qs.length := List.mem_range.mpr (qubitPos_lt h1)
  have hnd := List.nodup_range qs.length
  rw [ising_edge_factor]
  congr 1
  · have hpull := foldl_kron_ite_scal γ.c (fun _ => eye2)
      (fun idx => if idx = qubitPos qs e.1 then scal γ.c eye2 else eye2)
      (qubitPos qs e.1) (fun i => rfl) (List.range qs.length) [[(1 : K)]] hp1 hnd
    rw [kronList, kronList, hpull]
    congr 2
    rw [map_fun_const, List.length_range]
  · have hpull := foldl_kron_ite_scal (-(imK * γ.s))
      (fun idx => if idx = qubitPos qs e.1 ∨ idx = qubitPos qs e.2 then pauliZ else eye2)
      (fun idx =>
        if idx = qubitPos qs e.1 then scal (-(imK * γ.s)) pauliZ
        else if idx = qubitPos qs e.2 then pauliZ
        else eye2)
      (qubitPos qs e.1) ?_ (List.range qs.length) [[(1 : K)]] hp1 hnd
    · rw [kronList, kronList, hpull]
    · intro i
      by_cases hip : i = qubitPos qs e.1
      · simp [hip]
      · by_cases hiq : i = qubitPos qs e.2
        · simp [hip, hiq]
        · simp [hip, hiq]

/-! ### Claim C4 -/

/-- C4: `ising_rotation_matrix` with qubits `[j, k]` and the single edge
`(j, k)` returns exactly the `4×4` matrix
`cos(γ/2)·(I ⊗ I) - i·sin(γ/2)·(Z ⊗ Z)`; more generally (second conjunct),
for a nonempty qubit list each edge contributes the factor
`cos(γ/2)·I - i·sin(γ/2)·(Z_j ⊗ Z_k)` embedded by Kronecker product at the
positions of `j` and `k` in the qubit list, and the factors are multiplied in
edge-list order onto the identity (with an empty qubit list the call raises
`TypeError` from `reduce(np.kron, [])` instead of returning a matrix). -/
theorem c4_ising_closed_form :
    (∀ (γ : Ang) (j k : List Int), j ≠ k →
      ising_rotation_matrix γ [j, k] [(j, k)] =
        Except.ok (madd (scal γ.c (kron eye2 eye2))
          (scal (-(imK * γ.s)) (kron pauliZ pauliZ)))) ∧
    (∀ (γ : Ang) (qubits : List (List Int)) (edges : List (List Int × List Int)),
      qubits ≠ [] →
      (∀ e ∈ edges, e.1 ∈ qubits ∧ e.2 ∈ qubits) →
      ising_rotation_matrix γ qubits edges =
        Except.ok ((edges.map (fun e => ising_edge_factor γ qubits e)).foldl matmul
          (kronList (List.replicate qubits.length eye2)))) := by
  have hgen : ∀ (γ : Ang) (qubits : List (List Int)) (edges : List (List Int × List Int)),
      qubits ≠ [] →
      (∀ e ∈ edges, e.1 ∈ qubits ∧ e.2 ∈ qubits) →
      ising_rotation_matrix γ qubits edges =
        Except.ok ((edges.map (fun e => ising_edge_factor γ qubits e)).foldl matmul
          (kronList (List.replicate qubits.length eye2))) := by
    intro γ qs es hq hv
    rw [ising_explicit γ qs es hq hv]
    congr 2
    rw [List.map_map]
    apply List.map_congr_left
    intro e he
    have := rotation_eq_edge_factor γ qs e (hv e he).1 (hv e he).2
    simpa using this
  refine ⟨?_, hgen⟩
  intro γ j k hjk
  rw [hgen γ [j, k] [(j, k)] (by simp) (by simp)]
  have hkj : k ≠ j := Ne.symm hjk
  have hj : qubitPos [j, k] j = 0 := by
    simp [qubitPos, qubit_to_idx, List.enum, List.enumFrom, List.find?, hkj]
  have hk : qubitPos [j, k] k = 1 := by
    simp [qubitPos, qubit_to_idx, List.enum, List.enumFrom, List.find?]
  simp [ising_edge_factor, hj, hk, matmul, madd, scal, kron, kronList, dotK, colOf,
    eye2, pauliZ, List.range_succ]

/-- Witness for C4 at concrete inputs (a two-qubit single-edge call and a
three-qubit two-edge call). -/
theorem c4_ising_closed_form_witness :
    (ising_rotation_matrix ⟨5, 7⟩ [[0], [1]] [([0], [1])] =
      Except.ok (madd (scal (5 : K) (kron eye2 eye2))
        (scal (-(imK * (7 : K))) (kron pauliZ pauliZ)))) ∧
    (ising_rotation_matrix ⟨5, 7⟩ [[0], [1], [2]] [([0], [1]), ([0], [2])] =
      Except.ok (([([0], [1]), ([0], [2])].map
        (fun e => ising_edge_factor ⟨5, 7⟩ [[0], [1], [2]] e)).foldl matmul
        (kronList (List.replicate ([[0], [1], [2]] : List (List Int)).length eye2)))) :=
  ⟨c4_ising_closed_form.1 ⟨5, 7⟩ [0] [1] (by decide),
   c4_ising_closed_form.2 ⟨5, 7⟩ [[0], [1], [2]] [([0], [1]), ([0], [2])] (by decide)
     (by decide)⟩

/-! ### The assembler as a fold over its pass schedule (C3) -/

lemma getAngle_ok {l : List Ang} {i : Nat} (h : i < l.length) :
    getAngle l i = Except.ok (angleAt l i) := by
  rw [getAngle, angleAt]
  cases hg : l.get? i with
  | none => exact absurd (List.get?_eq_none.mp hg) (by omega)
  | some a => simp

lemma forward_layer_tensors_eq (b g : List Ang) (t : RTree) (ex : ExtraOps) (h : K)
    (l : Nat) (hb : l < b.length) (hg : l < g.length) :
    forward_layer_tensors b g t ex h l = Except.ok
      (layer_entries (angleAt b l) (angleAt g l) t false (decide (l = 0)) false
        (if l = b.length - 1 then ex else []) h,
       layer_entries (angleAt b l) (angleAt g l) t true false false
        (if l = b.length - 1 then ex else []) h) := by
  simp only [forward_layer_tensors, getAngle_ok hb, getAngle_ok hg, except_bind_ok,
    tree_layer_eq, except_pure_eq_ok]

lemma backward_layer_tensors_eq (b g : List Ang) (t : RTree) (h : K)
    (l : Nat) (hb : l < b.length) (hg : l < g.length) :
    backward_layer_tensors b g t h l = Except.ok
      (layer_entries (angleAt b l) (angleAt g l) t false (decide (l = 0)) true [] h,
       layer_entries (angleAt b l) (angleAt g l) t true false true [] h) := by
  simp only [backward_layer_tensors, getAngle_ok hb, getAngle_ok hg, except_bind_ok,
    tree_layer_eq, except_pure_eq_ok]

lemma qaoa_passes_eq (b g : List Ang) (t : RTree) (ex : ExtraOps) (h : K)
    (hlen : b.length ≤ g.length) :
    qaoa_passes b g t ex h = Except.ok (assembler_schedule b g t ex h) := by
  rw [qaoa_passes]
  rw [mapM_ok_of_forall _
    (fun l =>
      [layer_entries (angleAt b l) (angleAt g l) t false (decide (l = 0)) false
        (if l = b.length - 1 then ex else []) h,
       layer_entries (angleAt b l) (angleAt g l) t true false false
        (if l = b.length - 1 then ex else []) h]) _ ?_]
  · rw [except_bind_ok]
    rw [mapM_ok_of_forall _
      (fun l =>
        [layer_entries (angleAt b l) (angleAt g l) t false (decide (l = 0)) true [] h,
         layer_entries (angleAt b l) (angleAt g l) t true false true [] h]) _ ?_]
    · rfl
    · intro l hl
      have hlb : l < b.length := List.mem_range.mp (List.mem_reverse.mp hl)
      rw [backward_layer_tensors_eq b g t h l hlb (lt_of_lt_of_le hlb hlen)]
      rfl
  · intro l hl
    have hlb : l < b.length := List.mem_range.mp hl
    rw [forward_layer_tensors_eq b g t ex h l hlb (lt_of_lt_of_le hlb hlen)]
    rfl

lemma foldlM_update_eq (f : Nat → Except Err (List LEntry × List LEntry)) :
    ∀ (ls : List Nat) (m0 : TBR),
      ls.foldlM (fun m l => (f l).map (fun p =>
        update_tensors_by_root (update_tensors_by_root m p.1) p.2)) m0 =
      (ls.mapM (fun l => (f l).map (fun p => [p.1, p.2]))).map
        (fun ps => ps.flatten.foldl update_tensors_by_root m0)
  | [], m0 => rfl
  | l :: ls, m0 => by
    rw [List.foldlM_cons, List.mapM_cons]
    cases hf : f l with
    | error e => rfl
    | ok p =>
      rw [show (Except.map (fun p => update_tensors_by_root (update_tensors_by_root m0 p.1) p.2)
          (Except.ok p)) = Except.ok
            (update_tensors_by_root (update_tensors_by_root m0 p.1) p.2) from rfl,
        except_bind_ok,
        foldlM_update_eq f ls (update_tensors_by_root (update_tensors_by_root m0 p.1) p.2)]
      cases hm : ls.mapM (fun l => (f l).map (fun p => [p.1, p.2])) with
      | error e => rfl
      | ok ps =>
        show Except.ok _ = _
        simp only [Except.map, except_bind_ok, except_pure_eq_ok]
        rw [List.flatten_cons]
        simp [List.foldl_append, update_tensors_by_root]

lemma qaoa_eq_fold (b g : List Ang) (t : RTree) (ex : ExtraOps) (h : K) :
    qaoa_tensor_network b g t ex h =
      (qaoa_passes b g t ex h).map (fun ps => ps.foldl update_tensors_by_root []) := by
  rw [qaoa_tensor_network, qaoa_passes,
    foldlM_update_eq (forward_layer_tensors b g t ex h) (List.range b.length) []]
  cases hf : (List.range b.length).mapM
      (fun l => (forward_layer_tensors b g t ex h l).map (fun p => [p.1, p.2])) with
  | error e => rfl
  | ok fps =>
    simp only [except_map_ok, except_bind_ok]
    rw [foldlM_update_eq (backward_layer_tensors b g t h) (List.range b.length).reverse
      (fps.flatten.foldl update_tensors_by_root [])]
    cases hb : (List.range b.length).reverse.mapM
        (fun l => (backward_layer_tensors b g t h l).map (fun p => [p.1, p.2])) with
    | error e => rfl
    | ok bps =>
      simp only [except_map_ok, except_bind_ok, except_pure_eq_ok]
      rw [List.foldl_append]

/-! ### Claim C3 -/

/-- C3, counterexample: the claim asserts that the backward sweep appends,
within each layer, the odd-pass tensors before the even-pass tensors.  At a
concrete input (one layer on the degree-1 depth-1 tree) the sequence of
tensor lists handed to `update_tensors_by_root` differs from the claimed
schedule: the code's backward sweep hands over the even pass first (the odd
pass of a depth-1 tree is the empty list, so the claimed schedule has the
dagger boundary tensor in last position while the code produces it in third
position). -/
theorem c3_assembler_order_counterexample :
    qaoa_passes [⟨2, 3⟩] [⟨5, 7⟩] (regular_prefix_tree 1 1) [] 11 ≠
      Except.ok (c3_claimed_schedule [⟨2, 3⟩] [⟨5, 7⟩] (regular_prefix_tree 1 1) [] 11) := by
  decide

/-- C3 (amended): for every list of angles of length `L` and every tree, the
forward sweep runs layers `0, …, L-1` appending each layer's even-pass tensors
before its odd-pass tensors, and then the backward (dag) sweep runs layers
`L-1` down to `0` appending, within each layer, the even-pass tensors before
the odd-pass tensors to `tensors_by_root` (the code's backward update order is
even-then-odd, the same as the forward sweep; since the even and odd passes of
a layer touch disjoint node sets, the per-node tensor lists are unaffected by
this intra-layer order).  The returned `tensors_by_root` is exactly the left
fold of `update_tensors_by_root` over this schedule. -/
theorem c3_assembler_order_amended (b g : List Ang) (t : RTree) (ex : ExtraOps) (h : K)
    (hlen : b.length ≤ g.length) :
    qaoa_passes b g t ex h = Except.ok (assembler_schedule b g t ex h) ∧
    qaoa_tensor_network b g t ex h =
      Except.ok ((assembler_schedule b g t ex h).foldl update_tensors_by_root []) := by
  refine ⟨qaoa_passes_eq b g t ex h hlen, ?_⟩
  rw [qaoa_eq_fold, qaoa_passes_eq b g t ex h hlen]
  rfl

/-- Witness for C3's amended claim at a concrete input. -/
theorem c3_assembler_order_amended_witness :
    qaoa_passes [⟨2, 3⟩] [⟨5, 7⟩] (regular_prefix_tree 1 1) [] 11 =
      Except.ok (assembler_schedule [⟨2, 3⟩] [⟨5, 7⟩] (regular_prefix_tree 1 1) [] 11) ∧
    qaoa_tensor_network [⟨2, 3⟩] [⟨5, 7⟩] (regular_prefix_tree 1 1) [] 11 =
      Except.ok ((assembler_schedule [⟨2, 3⟩] [⟨5, 7⟩] (regular_prefix_tree 1 1) [] 11).foldl
        update_tensors_by_root []) :=
  c3_assembler_order_amended [⟨2, 3⟩] [⟨5, 7⟩] (regular_prefix_tree 1 1) [] 11 (by decide)

/-! ### Lookup structure of the accumulator map (C10) -/

lemma lookup_map_bump (key : List Int) (t : TenN) :
    ∀ (m : TBR) (q : List Int), q ≠ key →
      List.lookup q (m.map (fun p => if p.1 = key then (p.1, p.2 ++ [t]) else p)) =
        List.lookup q m
  | [], q, _ => rfl
  | (a, b) :: m, q, hqk => by
    by_cases hqa : q = a
    · by_cases hak : a = key
      · exact absurd (hqa.trans hak) hqk
      · simp only [List.map_cons, if_neg hak, List.lookup_cons, beq_iff_eq.mpr hqa]
    · by_cases hak : a = key
      · simp only [List.map_cons, if_pos hak, List.lookup_cons,
          beq_eq_false_iff_ne.mpr hqa]
        exact lookup_map_bump key t m q hqk
      · simp only [List.map_cons, if_neg hak, List.lookup_cons,
          beq_eq_false_iff_ne.mpr hqa]
        exact lookup_map_bump key t m q hqk

lemma lookup_map_bump_key (key : List Int) (t : TenN) :
    ∀ (m : TBR),
      List.lookup key (m.map (fun p => if p.1 = key then (p.1, p.2 ++ [t]) else p)) =
        (List.lookup key m).map (fun l => l ++ [t])
  | [] => rfl
  | (a, b) :: m => by
    by_cases hak : a = key
    · simp only [List.map_cons, if_pos hak, List.lookup_cons,
        beq_iff_eq.mpr hak.symm]
      rfl
    · simp only [List.map_cons, if_neg hak, List.lookup_cons,
        beq_eq_false_iff_ne.mpr (Ne.symm hak)]
      exact lookup_map_bump_key key t m

lemma lookup_append_pair (key q : List Int) (v : List TenN) :
    ∀ (m : TBR),
      List.lookup q (m ++ [(key, v)]) =
        match List.lookup q m with
        | some w => some w
        | none => if q = key then some v else none
  | [] => by
    by_cases hqk : q = key
    · simp only [List.nil_append, List.lookup_cons, beq_iff_eq.mpr hqk, List.lookup_nil,
        if_pos hqk]
    · simp only [List.nil_append, List.lookup_cons, beq_eq_false_iff_ne.mpr hqk,
        List.lookup_nil, if_neg hqk]
  | (a, b) :: m => by
    by_cases hqa : q = a
    · simp only [List.cons_append, List.lookup_cons, beq_iff_eq.mpr hqa]
    · simp only [List.cons_append, List.lookup_cons, beq_eq_false_iff_ne.mpr hqa]
      exact lookup_append_pair key q v m

lemma any_eq_lookup_isSome (key : List Int) :
    ∀ (m : TBR), (m.any (fun p => decide (p.1 = key))) = (List.lookup key m).isSome
  | [] => rfl
  | (a, b) :: m => by
    by_cases hak : a = key
    · simp only [List.any_cons, List.lookup_cons, beq_iff_eq.mpr hak.symm,
        decide_eq_true_eq]
      simp [hak]
    · simp only [List.any_cons, List.lookup_cons,
        beq_eq_false_iff_ne.mpr (Ne.symm hak)]
      have : decide (a = key) = false := by simp [hak]
      rw [this, Bool.false_or]
      exact any_eq_lookup_isSome key m

lemma lookup_addTensor (m : TBR) (key q : List Int) (t : TenN) :
    List.lookup q (addTensor m key t) =
      if q = key then some (((List.lookup key m).getD []) ++ [t]) else List.lookup q m := by
  rw [addTensor, any_eq_lookup_isSome key m]
  by_cases hany : (List.lookup key m).isSome = true
  · rw [if_pos hany]
    by_cases hqk : q = key
    · subst hqk
      rw [if_pos rfl, lookup_map_bump_key]
      rcases Option.isSome_iff_exists.mp hany with ⟨v, hv⟩
      rw [hv]
      simp
    · rw [if_neg hqk]
      exact lookup_map_bump key t m q hqk
  · rw [if_neg hany]
    have hnone : List.lookup key m = none := by
      cases hlk : List.lookup key m with
      | none => rfl
      | some v => exact absurd (by rw [hlk]; rfl) hany
    rw [lookup_append_pair]
    by_cases hqk : q = key
    · subst hqk
      rw [hnone]
      simp
    · cases hq : List.lookup q m with
      | some v => simp [hqk]
      | none => simp [hqk]

lemma lookup_update_tensors :
    ∀ (es : List LEntry) (m : TBR) (q : List Int),
      List.lookup q (update_tensors_by_root m es) =
        if (List.lookup q m).isSome ∨ 0 < es.countP (fun e => decide (e.node = q)) then
          some (((List.lookup q m).getD []) ++
            (es.filter (fun e => decide (e.node = q))).map (fun e => e.tensor))
        else none
  | [], m, q => by
    cases hq : List.lookup q m with
    | some v => simp [update_tensors_by_root, hq]
    | none => simp [update_tensors_by_root, hq]
  | e :: es, m, q => by
    have hstep : update_tensors_by_root m (e :: es) =
        update_tensors_by_root (addTensor m e.node e.tensor) es := rfl
    rw [hstep, lookup_update_tensors es (addTensor m e.node e.tensor) q,
      lookup_addTensor m e.node q e.tensor]
    by_cases hqe : q = e.node
    · subst hqe
      rw [if_pos rfl]
      simp [List.countP_cons, List.filter_cons, List.append_assoc]
    · have hPe : (decide (e.node = q)) = false := by
        simp only [decide_eq_false_iff_not]
        exact Ne.symm hqe
      rw [if_neg hqe, List.countP_cons, List.filter_cons]
      have hz : (if (decide (e.node = q)) = true then 1 else 0) = 0 := by
        rw [hPe]
        rfl
      rw [hz, Nat.add_zero]
      have hf : (if (decide (e.node = q)) = true then
          e :: List.filter (fun x => decide (x.node = q)) es
          else List.filter (fun x => decide (x.node = q)) es) =
          List.filter (fun x => decide (x.node = q)) es := by
        rw [hPe]
        rfl
      rw [hf]

lemma foldl_update_eq_flatten : ∀ (ps : List (List LEntry)) (m : TBR),
    ps.foldl update_tensors_by_root m = update_tensors_by_root m ps.flatten
  | [], m => rfl
  | es :: ps, m => by
    rw [List.foldl_cons, foldl_update_eq_flatten ps (update_tensors_by_root m es),
      List.flatten_cons]
    show update_tensors_by_root (update_tensors_by_root m es) ps.flatten =
      (es ++ ps.flatten).foldl (fun acc e => addTensor acc e.node e.tensor) m
    rw [List.foldl_append]
    rfl

lemma countP_flatten (p : LEntry → Bool) : ∀ (ps : List (List LEntry)),
    ps.flatten.countP p = (ps.map (fun es => es.countP p)).sum
  | [] => rfl
  | es :: ps => by
    rw [List.flatten_cons, List.countP_append, List.map_cons, List.sum_cons,
      countP_flatten p ps]

/-! ### Per-pass node counts of the layer generator (C10) -/

lemma nodup_countP_eq_one {α : Type} [DecidableEq α] :
    ∀ (l : List α) (q : α), l.Nodup → q ∈ l → l.countP (fun y => decide (y = q)) = 1
  | [], q, _, hq => absurd hq (by simp)
  | a :: l, q, hnd, hq => by
    rw [List.countP_cons]
    by_cases hqa : a = q
    · subst hqa
      have hnotin : a ∉ l := (List.nodup_cons.mp hnd).1
      have hzero : l.countP (fun y => decide (y = a)) = 0 :=
        List.countP_eq_zero.mpr (fun b hb => by
          simp only [decide_eq_true_eq]
          exact fun hba => hnotin (hba ▸ hb))
      simp [hzero]
    · have hql : q ∈ l := by
        rcases List.mem_cons.mp hq with hc | hc
        · exact absurd hc.symm hqa
        · exact hc
      rw [nodup_countP_eq_one l q (List.nodup_cons.mp hnd).2 hql]
      simp [hqa]

lemma countP_fst_map {l : List (List Int × RTree)} {q : List Int} :
    l.countP (fun pr => decide (pr.1 = q)) =
      (l.map Prod.fst).countP (fun y => decide (y = q)) := by
  rw [List.countP_map]
  rfl

lemma atDepthKids_eq_flatMap : ∀ (ks : List (Int × RTree)) (d : Nat),
    atDepthKids ks d =
      ks.flatMap (fun k => (RTree.atDepth k.2 d).map (fun pr => (k.1 :: pr.1, pr.2)))
  | [], _ => rfl
  | (a, t) :: ks, d => by
    rw [List.flatMap_cons, atDepthKids, atDepthKids_eq_flatMap ks d]

lemma atDepthKids_head : ∀ (ks : List (Int × RTree)) (d : Nat) (pr : List Int × RTree),
    pr ∈ atDepthKids ks d → ∃ b, b ∈ ks.map Prod.fst ∧ ∃ tail, pr.1 = b :: tail
  | [], _, pr, hpr => absurd hpr (by simp [atDepthKids])
  | (a, t) :: ks, d, pr, hpr => by
    rw [atDepthKids, List.mem_append] at hpr
    rcases hpr with hl | hr
    · rcases List.mem_map.mp hl with ⟨q, _, rfl⟩
      exact ⟨a, by simp, q.1, rfl⟩
    · rcases atDepthKids_head ks d pr hr with ⟨b, hb, tail, htail⟩
      exact ⟨b, by simp [List.mem_cons]; right; simpa using hb, tail, htail⟩

lemma atDepthKids_fst_nodup (d : Nat) :
    ∀ (ks : List (Int × RTree)), (ks.map Prod.fst).Nodup →
    (∀ k ∈ ks, ((RTree.atDepth k.2 d).map Prod.fst).Nodup) →
    ((atDepthKids ks d).map Prod.fst).Nodup
  | [], _, _ => by simp [atDepthKids]
  | (a, t) :: ks, hnd, hrec => by
    rw [atDepthKids, List.map_append, List.nodup_append]
    have hleft : (((RTree.atDepth t d).map (fun pr => (a :: pr.1, pr.2))).map Prod.fst) =
        ((RTree.atDepth t d).map Prod.fst).map (fun p => a :: p) := by
      rw [List.map_map, List.map_map]
      rfl
    have hts := hrec (a, t) (by simp)
    refine ⟨?_, ?_, ?_⟩
    · rw [hleft]
      exact hts.map (fun p1 p2 hp => by simpa using hp)
    · exact atDepthKids_fst_nodup d ks ((List.nodup_cons.mp (by simpa using hnd)).2)
        (fun k hk => hrec k (by simp [hk]))
    · intro x hx1 hx2
      rw [hleft] at hx1
      rcases List.mem_map.mp hx1 with ⟨p, _, rfl⟩
      rcases List.mem_map.mp hx2 with ⟨pr2, hpr2, hxeq⟩
      rcases atDepthKids_head ks d pr2 hpr2 with ⟨b, hb, tail, htail⟩
      have hcons : b :: tail = a :: p := by rw [← htail, hxeq]
      simp only [List.cons.injEq] at hcons
      have hnotin : a ∉ ks.map Prod.fst := (List.nodup_cons.mp (by simpa using hnd)).1
      exact hnotin (hcons.1 ▸ hb)

lemma chain_atDepth_fst_nodup : ∀ (d k w : Nat),
    (((chain w k).atDepth d).map Prod.fst).Nodup
  | 0, k, w => by
    cases k <;> simp [chain, RTree.atDepth]
  | d + 1, 0, w => by simp [chain, RTree.atDepth, atDepthKids]
  | d + 1, k + 1, w => by
    show ((atDepthKids ((List.range w).map (fun a => (Int.ofNat a, chain w k))) d).map
      Prod.fst).Nodup
    apply atDepthKids_fst_nodup
    · rw [List.map_map]
      refine (List.nodup_range w).map ?_
      intro a b hab
      simpa using hab
    · intro k2 hk2
      rcases List.mem_map.mp hk2 with ⟨a, _, rfl⟩
      exact chain_atDepth_fst_nodup d k w

lemma rpt_atDepth_fst_nodup (deg dep d : Nat) :
    (((regular_prefix_tree deg dep).atDepth d).map Prod.fst).Nodup := by
  rw [regular_prefix_tree]
  by_cases hguard : deg = 0 ∨ (deg = 1 ∧ 2 ≤ dep)
  · rw [if_pos hguard]
    cases d <;> simp [RTree.atDepth, atDepthKids]
  · rw [if_neg hguard]
    cases d with
    | zero => simp [RTree.atDepth]
    | succ d =>
      show ((atDepthKids ((List.range deg).map
        (fun a => (Int.ofNat a, chain (deg - 1) (dep - 1)))) d).map Prod.fst).Nodup
      apply atDepthKids_fst_nodup
      · rw [List.map_map]
        refine (List.nodup_range deg).map ?_
        intro a b hab
        simpa using hab
      · intro k2 hk2
        rcases List.mem_map.mp hk2 with ⟨a, _, rfl⟩
        exact chain_atDepth_fst_nodup d (dep - 1) (deg - 1)

lemma sum_map_single (f : Nat → Nat) (d0 : Nat) :
    ∀ (ds : List Nat), (∀ d ∈ ds, d ≠ d0 → f d = 0) → ds.Nodup →
    (ds.map f).sum = if d0 ∈ ds then f d0 else 0
  | [], _, _ => by simp
  | d :: ds, hz, hnd => by
    rw [List.map_cons, List.sum_cons,
      sum_map_single f d0 ds (fun x hx => hz x (by simp [hx])) (List.nodup_cons.mp hnd).2]
    by_cases hdd : d = d0
    · subst hdd
      have hnot : d ∉ ds := (List.nodup_cons.mp hnd).1
      rw [if_neg hnot, if_pos (by simp)]
      omega
    · rw [hz d (by simp) hdd]
      by_cases hin : d0 ∈ ds
      · rw [if_pos hin, if_pos (by simp [List.mem_cons, hin])]
        omega
      · rw [if_neg hin, if_neg (by simp [List.mem_cons, Ne.symm hdd, hin])]

lemma layer_entries_countP (β γ : Ang) (tree : RTree) (odd ii dg : Bool) (ex : ExtraOps)
    (h : K) (q : List Int) :
    (layer_entries β γ tree odd ii dg ex h).countP (fun e => decide (e.node = q)) =
      if q.length < RTree.depth tree ∧ q.length % 2 = (if odd then 1 else 0) then
        (RTree.atDepth tree q.length).countP (fun pr => decide (pr.1 = q))
      else 0 := by
  rw [layer_entries]
  rw [← List.flatMap_def, List.countP_flatMap]
  have hinner : ∀ d : Nat,
      (List.countP (fun e => decide (e.node = q)) ∘ (fun d =>
        (tree.atDepth d).map (fun pr =>
          node_entry (if dg then Ang.neg β else β) (if dg then Ang.neg γ else γ)
            odd ii dg ex h pr.1 pr.2))) d =
      (RTree.atDepth tree d).countP (fun pr => decide (pr.1 = q)) := by
    intro d
    show ((tree.atDepth d).map (fun pr =>
      node_entry (if dg then Ang.neg β else β) (if dg then Ang.neg γ else γ)
        odd ii dg ex h pr.1 pr.2)).countP (fun e => decide (e.node = q)) = _
    rw [List.countP_map]
    rfl
  rw [List.map_congr_left (fun d _ => hinner d)]
  rw [sum_map_single _ q.length _ ?_ ((List.nodup_range _).filter _)]
  · by_cases hcond : q.length < RTree.depth tree ∧ q.length % 2 = (if odd then 1 else 0)
    · rw [if_pos hcond, if_pos ?_]
      rw [List.mem_filter, List.mem_range]
      exact ⟨hcond.1, by simp [hcond.2]⟩
    · rw [if_neg hcond, if_neg ?_]
      rw [List.mem_filter, List.mem_range]
      intro hmem
      exact hcond ⟨hmem.1, by simpa using hmem.2⟩
  · intro d _ hdq
    apply List.countP_eq_zero.mpr
    intro pr hpr
    simp only [decide_eq_true_eq]
    intro hprq
    exact hdq (by rw [← atDepth_path_length hpr, hprq])

lemma countP_flatten_map_pair {α : Type} (p : LEntry → Bool) (f g : α → List LEntry) :
    ∀ (ls : List α),
      (((ls.map (fun l => [f l, g l])).flatten.flatten).countP p) =
        (ls.map (fun l => (f l).countP p + (g l).countP p)).sum
  | [] => rfl
  | l :: ls => by
    rw [List.map_cons, List.flatten_cons, List.flatten_append, List.countP_append,
      List.map_cons, List.sum_cons, countP_flatten_map_pair p f g ls]
    show ((f l ++ (g l ++ [])).countP p) + _ = _
    rw [List.countP_append, List.countP_append]
    simp

lemma layer_pair_countP (β1 γ1 β2 γ2 : Ang) (t : RTree) (ii1 ii2 dg1 dg2 : Bool)
    (ex1 ex2 : ExtraOps) (h : K) (q : List Int) (hq : q.length < RTree.depth t) :
    (layer_entries β1 γ1 t false ii1 dg1 ex1 h).countP (fun e => decide (e.node = q)) +
    (layer_entries β2 γ2 t true ii2 dg2 ex2 h).countP (fun e => decide (e.node = q)) =
      (RTree.atDepth t q.length).countP (fun pr => decide (pr.1 = q)) := by
  rw [layer_entries_countP, layer_entries_countP]
  rcases Nat.mod_two_eq_zero_or_one q.length with hm | hm
  · rw [if_pos ⟨hq, by simp [hm]⟩, if_neg (by simp [hm])]
    omega
  · rw [if_neg (by simp [hm]), if_pos ⟨hq, by simp [hm]⟩]
    omega

lemma layer_countP_zero (β γ : Ang) (t : RTree) (odd ii dg : Bool) (ex : ExtraOps) (h : K)
    (q : List Int) (hq : ¬ q.length < RTree.depth t) :
    (layer_entries β γ t odd ii dg ex h).countP (fun e => decide (e.node = q)) = 0 := by
  rw [layer_entries_countP, if_neg (by tauto)]

lemma sum_map_const_nat {α : Type} (c : Nat) (l : List α) :
    (l.map (fun _ => c)).sum = l.length * c := by
  rw [map_fun_const, List.sum_replicate, smul_eq_mul]

lemma schedule_countP (b g : List Ang) (t : RTree) (ex : ExtraOps) (h : K) (q : List Int) :
    ((assembler_schedule b g t ex h).flatten).countP (fun e => decide (e.node = q)) =
      if q.length < RTree.depth t then
        2 * b.length * ((RTree.atDepth t q.length).countP (fun pr => decide (pr.1 = q)))
      else 0 := by
  rw [assembler_schedule, List.flatten_append, List.countP_append,
    countP_flatten_map_pair _
      (fun l => layer_entries (angleAt b l) (angleAt g l) t false (decide (l = 0)) false
        (if l = b.length - 1 then ex else []) h)
      (fun l => layer_entries (angleAt b l) (angleAt g l) t true false false
        (if l = b.length - 1 then ex else []) h)
      (List.range b.length),
    countP_flatten_map_pair _
      (fun l => layer_entries (angleAt b l) (angleAt g l) t false (decide (l = 0)) true [] h)
      (fun l => layer_entries (angleAt b l) (angleAt g l) t true false true [] h)
      (List.range b.length).reverse]
  by_cases hq : q.length < RTree.depth t
  · rw [if_pos hq]
    rw [List.map_congr_left (fun l _ =>
        layer_pair_countP (angleAt b l) (angleAt g l) (angleAt b l) (angleAt g l) t
          (decide (l = 0)) false false false
          (if l = b.length - 1 then ex else []) (if l = b.length - 1 then ex else []) h q hq),
      List.map_congr_left (fun l _ =>
        layer_pair_countP (angleAt b l) (angleAt g l) (angleAt b l) (angleAt g l) t
          (decide (l = 0)) false true true [] [] h q hq),
      sum_map_const_nat, sum_map_const_nat, List.length_reverse, List.length_range]
    ring
  · rw [if_neg hq]
    have hz1 : (List.range b.length).map (fun l =>
        (layer_entries (angleAt b l) (angleAt g l) t false (decide (l = 0)) false
          (if l = b.length - 1 then ex else []) h).countP (fun e => decide (e.node = q)) +
        (layer_entries (angleAt b l) (angleAt g l) t true false false
          (if l = b.length - 1 then ex else []) h).countP (fun e => decide (e.node = q))) =
        (List.range b.length).map (fun _ => (0 : Nat)) := by
      apply List.map_congr_left
      intro l _
      rw [layer_countP_zero _ _ t false (decide (l = 0)) false _ h q hq,
        layer_countP_zero _ _ t true false false _ h q hq]
    have hz2 : ((List.range b.length).reverse).map (fun l =>
        (layer_entries (angleAt b l) (angleAt g l) t false (decide (l = 0)) true
          [] h).countP (fun e => decide (e.node = q)) +
        (layer_entries (angleAt b l) (angleAt g l) t true false true
          [] h).countP (fun e => decide (e.node = q))) =
        ((List.range b.length).reverse).map (fun _ => (0 : Nat)) := by
      apply List.map_congr_left
      intro l _
      rw [layer_countP_zero _ _ t false (decide (l = 0)) true _ h q hq,
        layer_countP_zero _ _ t true false true _ h q hq]
    rw [hz1, hz2, sum_map_const_nat, sum_map_const_nat]
    simp

/-! ### Claim C10 -/

lemma getAngle_error {l : List Ang} {i : Nat} (h : l.length ≤ i) :
    getAngle l i = Except.error Err.indexErr := by
  rw [getAngle, List.get?_eq_none.mpr h]

lemma forward_layer_tensors_error (b g : List Ang) (t : RTree) (ex : ExtraOps) (h : K)
    (l : Nat) (hb : l < b.length) (hg : g.length ≤ l) :
    forward_layer_tensors b g t ex h l = Except.error Err.indexErr := by
  simp only [forward_layer_tensors, getAngle_ok hb, except_bind_ok, getAngle_error hg,
    except_bind_error]

lemma qaoa_ok_schedule (b g : List Ang) (t : RTree) (ex : ExtraOps) (h : K) (tbr : TBR)
    (hok : qaoa_tensor_network b g t ex h = Except.ok tbr) :
    tbr = (assembler_schedule b g t ex h).foldl update_tensors_by_root [] := by
  rw [qaoa_eq_fold] at hok
  cases hp : qaoa_passes b g t ex h with
  | error e =>
    rw [hp, except_map_error] at hok
    exact absurd hok (by simp)
  | ok ps =>
    rw [hp, except_map_ok] at hok
    have hlen : b.length ≤ g.length := by
      by_contra hlt
      push_neg at hlt
      rw [qaoa_passes] at hp
      cases hf : (List.range b.length).mapM
          (fun l => (forward_layer_tensors b g t ex h l).map (fun p => [p.1, p.2])) with
      | error e =>
        rw [hf, except_bind_error] at hp
        exact absurd hp (by simp)
      | ok fps =>
        obtain ⟨y, hy⟩ := exists_ok_of_mapM_ok _ _ fps hf g.length
          (List.mem_range.mpr hlt)
        rw [forward_layer_tensors_error b g t ex h g.length hlt (le_refl _),
          except_map_error] at hy
        exact absurd hy (by simp)
    rw [qaoa_passes_eq b g t ex h hlen] at hp
    rw [Except.ok.inj hp]
    exact (Except.ok.inj hok).symm

lemma lookup_schedule (b g : List Ang) (t : RTree) (ex : ExtraOps) (h : K) (q : List Int) :
    List.lookup q ((assembler_schedule b g t ex h).foldl update_tensors_by_root []) =
      if 0 < ((assembler_schedule b g t ex h).flatten).countP
          (fun e => decide (e.node = q)) then
        some ((((assembler_schedule b g t ex h).flatten).filter
            (fun e => decide (e.node = q))).map (fun e => e.tensor))
      else none := by
  rw [foldl_update_eq_flatten, lookup_update_tensors]
  simp

lemma rpt_atDepth_countP (deg dep d : Nat) (pr : List Int × RTree)
    (hpr : pr ∈ RTree.atDepth (regular_prefix_tree deg dep) d) :
    (RTree.atDepth (regular_prefix_tree deg dep) d).countP
        (fun x => decide (x.1 = pr.1)) = 1 := by
  rw [countP_fst_map]
  exact nodup_countP_eq_one _ _ (rpt_atDepth_fst_nodup deg dep d)
    (List.mem_map_of_mem Prod.fst hpr)

/-- C10, counterexample: the claim asserts the invariant for every number of
layers, but with `L = 0` (empty `betas`) `qaoaTensorNetwork` returns the
empty mapping, so the root of the depth-1 degree-3 prefix tree — an internal
node (its depth 0 is strictly below the tree depth 1) — is not a key at
all, let alone one whose list has length `2·L`. -/
theorem c10_tensor_count_counterexample :
    qaoa_tensor_network [] [] (regular_prefix_tree 3 1) [] 5 = Except.ok [] ∧
    0 < RTree.depth (regular_prefix_tree 3 1) ∧
    ([] : List Int) ∈ (RTree.atDepth (regular_prefix_tree 3 1) 0).map Prod.fst ∧
    List.lookup ([] : List Int)
      (okTBR (qaoa_tensor_network [] [] (regular_prefix_tree 3 1) [] 5)) = none := by
  exact ⟨by decide, by decide, by decide, by decide⟩

/-- C10 (amended): for at least one layer (`1 ≤ len(betas)`), whenever
`qaoaTensorNetwork` succeeds on a regular prefix tree, every node whose depth
is strictly below the tree depth is a key of the returned mapping whose
tensor list has length exactly `2·L`, and no node at depth equal to the tree
depth (leaf) appears as a key. -/
theorem c10_tensor_count_amended (deg dep : Nat) (b g : List Ang) (ex : ExtraOps) (h : K)
    (tbr : TBR)
    (hok : qaoa_tensor_network b g (regular_prefix_tree deg dep) ex h = Except.ok tbr)
    (hL : 1 ≤ b.length) :
    (∀ (d : Nat) (pr : List Int × RTree),
      d < RTree.depth (regular_prefix_tree deg dep) →
      pr ∈ RTree.atDepth (regular_prefix_tree deg dep) d →
      ∃ ts, List.lookup pr.1 tbr = some ts ∧ ts.length = 2 * b.length) ∧
    (∀ pr : List Int × RTree,
      pr ∈ RTree.atDepth (regular_prefix_tree deg dep)
        (RTree.depth (regular_prefix_tree deg dep)) →
      List.lookup pr.1 tbr = none) := by
  have htbr := qaoa_ok_schedule b g (regular_prefix_tree deg dep) ex h tbr hok
  constructor
  · intro d pr hd hpr
    have hql : pr.1.length = d := atDepth_path_length hpr
    have hcnt : ((assembler_schedule b g (regular_prefix_tree deg dep) ex h).flatten).countP
        (fun e => decide (e.node = pr.1)) = 2 * b.length := by
      rw [schedule_countP, if_pos (show pr.1.length < RTree.depth (regular_prefix_tree deg dep)
        from hql ▸ hd), hql, rpt_atDepth_countP deg dep d pr hpr, Nat.mul_one]
    refine ⟨(((assembler_schedule b g (regular_prefix_tree deg dep) ex h).flatten).filter
        (fun e => decide (e.node = pr.1))).map (fun e => e.tensor), ?_, ?_⟩
    · rw [htbr, lookup_schedule, if_pos (show 0 < _ from hcnt ▸ (by omega : 0 < 2 * b.length))]
    · rw [List.length_map, ← List.countP_eq_length_filter, hcnt]
  · intro pr hpr
    have hql := atDepth_path_length hpr
    have hcnt : ((assembler_schedule b g (regular_prefix_tree deg dep) ex h).flatten).countP
        (fun e => decide (e.node = pr.1)) = 0 := by
      rw [schedule_countP, if_neg (show ¬ pr.1.length < RTree.depth (regular_prefix_tree deg dep)
        by rw [hql]; omega)]
    rw [htbr, lookup_schedule, if_neg (by rw [hcnt]; omega)]

/-- Witness for the amended C10 at a concrete input: one layer on the
degree-1, depth-1 prefix tree. -/
theorem c10_tensor_count_amended_witness :
    (qaoa_tensor_network [wB] [wG] (regular_prefix_tree 1 1) [] 5 =
        Except.ok (okTBR (qaoa_tensor_network [wB] [wG] (regular_prefix_tree 1 1) [] 5)) ∧
      1 ≤ ([wB] : List Ang).length) ∧
    ((∀ (d : Nat) (pr : List Int × RTree),
      d < RTree.depth (regular_prefix_tree 1 1) →
      pr ∈ RTree.atDepth (regular_prefix_tree 1 1) d →
      ∃ ts, List.lookup pr.1
          (okTBR (qaoa_tensor_network [wB] [wG] (regular_prefix_tree 1 1) [] 5)) = some ts ∧
        ts.length = 2 * ([wB] : List Ang).length) ∧
    (∀ pr : List Int × RTree,
      pr ∈ RTree.atDepth (regular_prefix_tree 1 1)
        (RTree.depth (regular_prefix_tree 1 1)) →
      List.lookup pr.1
        (okTBR (qaoa_tensor_network [wB] [wG] (regular_prefix_tree 1 1) [] 5)) = none)) :=
  ⟨⟨by decide, by decide⟩,
    c10_tensor_count_amended 1 1 [wB] [wG] [] 5 _ (by decide) (by decide)⟩
